import Mathlib

/-!
Verification of the VtuberAiCompanion repository against its specification.

The Python modules are shallowly embedded: pure numeric/string code becomes
Lean functions over `ℚ`/`ℝ` (Python floats are modelled as exact reals, so
"within floating tolerance" statements become exact equalities), stateful
module code becomes explicit state passing or a step relation, and fallible
code (code whose exceptions escape the function) returns `Option`.
Definitions follow the source files named in each section.
-/

namespace Vtuber

/-! # Definitions -/

/-! ## Shared vector arithmetic

`dotList` models `sum(a * b for a, b in zip(vec1, vec2))` (src/memory_rag_system.py,
`SimpleEmbedding.cosine_similarity`) and `np.dot` on equal-length 1-D arrays
(src/utils/based_rag.py, `cosine_similarity`).  `sumSq` models
`sum(a * a for a in vec)`; the Python norms are `sqrt (sumSq v)`. -/
def dotList {α : Type} [Mul α] [Add α] [Zero α] : List α → List α → α
  | a :: v1, b :: v2 => a * b + dotList v1 v2
  | _, _ => 0

def sumSq {α : Type} [Mul α] [Add α] [Zero α] : List α → α
  | [] => 0
  | a :: v => a * a + sumSq v

/-! ## SimpleEmbedding (src/memory_rag_system.py)

`_tokenize` lowercases, strips characters matching `[^\w\s]` and splits on
whitespace runs (Python `str.split()` drops empty pieces).  `\w` is modelled
as alphanumeric-or-underscore, `\s` as whitespace. -/
def keepChar (c : Char) : Bool := c.isAlphanum || c = '_' || c.isWhitespace

/-- Whitespace splitting in the manner of Python `str.split()`: the first
argument accumulates the current word (reversed). -/
def splitWords : List Char → List Char → List String
  | cur, [] => if cur.isEmpty then [] else [String.mk cur.reverse]
  | cur, c :: rest =>
    if c.isWhitespace then
      if cur.isEmpty then splitWords [] rest
      else String.mk cur.reverse :: splitWords [] rest
    else splitWords (c :: cur) rest

namespace SimpleEmbedding

/-- `SimpleEmbedding._tokenize`: lower-case (character-wise), drop characters
matching `[^\w\s]`, split on whitespace. -/
def tokenize (text : String) : List String :=
  splitWords [] ((text.toList.map Char.toLower).filter keepChar)

/-- The un-normalized TF-IDF vector of `SimpleEmbedding.embed_text`.  The
vocabulary dict `{word: idx}` is modelled as a (duplicate-free) list whose
position is the index; `idf` models `self.idf_scores.get(token, 1.0)`, i.e.
the lookup with its default already applied.  Position `i` of the vector holds
`tf * idf` of the word with index `i` when that word occurs in the tokens,
and `0.0` otherwise, exactly as the write loop leaves it. -/
noncomputable def embedVector (vocab : List String) (idf : String → ℝ)
    (vocab_size : ℕ) (text : String) : List ℝ :=
  let tokens := tokenize text
  (List.range (min vocab_size vocab.length)).map (fun i =>
    let w := vocab.getD i ""
    let c := tokens.count w
    if 0 < c then ((c : ℝ) / (tokens.length : ℝ)) * idf w else 0)

/-- `SimpleEmbedding.embed_text` with the call-site default `vocab_size=100`:
build the TF-IDF vector, then divide by its Euclidean norm when that norm is
positive. -/
noncomputable def embed_text (vocab : List String) (idf : String → ℝ)
    (text : String) : List ℝ :=
  let v := embedVector vocab idf 100 text
  let norm := Real.sqrt (sumSq v)
  if 0 < norm then v.map (fun x => x / norm) else v

/-- `SimpleEmbedding.cosine_similarity`: `0.0` on a length mismatch, `0.0`
when either Euclidean norm is zero, else the normalized dot product. -/
noncomputable def cosine_similarity (vec1 vec2 : List ℝ) : ℝ :=
  if vec1.length ≠ vec2.length then 0
  else if Real.sqrt (sumSq vec1) = 0 ∨ Real.sqrt (sumSq vec2) = 0 then 0
  else dotList vec1 vec2 / (Real.sqrt (sumSq vec1) * Real.sqrt (sumSq vec2))

end SimpleEmbedding

namespace BasedRag

/-! ## Based RAG (src/utils/based_rag.py)

`simple_text_embedding` is the corpus-free hand-engineered feature embedder:
normalized length, normalized word count, 26 letter frequencies, punctuation
density, question and exclamation flags, padded/truncated to 50 dimensions.
All features are ratios of counts, so the embedding is an exact `List ℚ`. -/
def punctuationChars : List Char := ['.', ',', '!', '?', ';', ':']

/-- `based_rag.simple_text_embedding`. -/
def simple_text_embedding (text : String) : List ℚ :=
  if text = "" then List.replicate 50 0
  else
    let chars := text.toList
    let lowChars := text.toList.map Char.toLower
    let letters := (List.range 26).map (fun i => Char.ofNat ('a'.toNat + i))
    let counts := letters.map (fun c => (lowChars.count c : ℚ))
    let total : ℚ := max counts.sum 1
    let f1 := min ((chars.length : ℚ) / 100) 1
    let f2 := min (((splitWords [] chars).length : ℚ) / 50) 1
    let freqs := counts.map (fun k => k / total)
    let punct : ℚ := ((chars.filter (fun c => c ∈ punctuationChars)).length : ℚ)
    let f3 := min (punct / max ((chars.length : ℚ)) 1) 1
    let f4 : ℚ := if '?' ∈ chars then 1 else 0
    let f5 : ℚ := if '!' ∈ chars then 1 else 0
    let fs := [f1, f2] ++ freqs ++ [f3, f4, f5]
    (fs ++ List.replicate (50 - fs.length) 0).take 50

/-- The numpy-array view of a stored float vector. -/
def toReal (v : List ℚ) : List ℝ := v.map (fun (q : ℚ) => (q : ℝ))

/-- `based_rag.cosine_similarity`.  It first returns `0.0` on an empty input,
then converts to numpy arrays and calls `np.dot`: on nonempty 1-D arrays of
different lengths `np.dot` raises `ValueError`, which escapes the function —
modelled as `none`.  Otherwise zero norms give `0.0`, else the normalized dot
product. -/
noncomputable def cosine_similarity (vec1 vec2 : List ℚ) : Option ℝ :=
  if vec1.isEmpty || vec2.isEmpty then some 0
  else if vec1.length ≠ vec2.length then none
  else if Real.sqrt (sumSq (toReal vec1)) = 0 ∨ Real.sqrt (sumSq (toReal vec2)) = 0 then
    some 0
  else some (dotList (toReal vec1) (toReal vec2) /
    (Real.sqrt (sumSq (toReal vec1)) * Real.sqrt (sumSq (toReal vec2))))

end BasedRag

section StableSort

variable {α : Type} {β : Type} [LinearOrder β]

/-! ## Stable descending sort

`results.sort(key=..., reverse=True)` in Python is a stable sort: entries with
equal keys keep their original relative order.  `sortByKeyDesc` is a stable
insertion sort with the same observable behaviour. -/
/-- Insert `x` before the first element whose key is not larger than `x`'s. -/
def insertByKeyDesc (key : α → β) (x : α) : List α → List α
  | [] => [x]
  | y :: ys => if key x < key y then y :: insertByKeyDesc key x ys else x :: y :: ys

/-- Stable descending sort by `key` (Python `sort(key=key, reverse=True)`). -/
def sortByKeyDesc (key : α → β) : List α → List α
  | [] => []
  | x :: xs => insertByKeyDesc key x (sortByKeyDesc key xs)

/-- Descending-key order with ties resolved by a secondary relation. -/
def KeyLex (key : α → β) (R : α → α → Prop) (a b : α) : Prop :=
  key b < key a ∨ (key a = key b ∧ R a b)

end StableSort

/-! ## MemoryRAGSystem retrieval (src/memory_rag_system.py)

The ORM rows of `models.ConversationLog` / `models.Memory` are modelled as
records; `embedding_vector` is the parsed JSON list, `none` when the column is
empty or `json.loads` fails (the per-row `try`/`except: continue`).  The query
`order_by(created_at.desc()).limit(100)` is modelled by the stable descending
sort on `created_at` followed by `take`. -/
structure ConversationLog where
  user_id : String
  user_message : String
  ai_response : String
  created_at : ℤ
  embedding_vector : Option (List ℝ)

structure Memory where
  user_id : String
  memory_type : String
  content : String
  importance_score : ℝ
  embedding_vector : Option (List ℝ)

namespace MemoryRAG

/-- The loop body of `MemoryRAGSystem.search_similar_conversations`: skip rows
without a (parsable) embedding, compute the cosine similarity against the
query embedding `qe`, and keep the row only when the similarity strictly
exceeds the threshold. -/
noncomputable def scanConversation (qe : List ℝ) (similarity_threshold : ℝ)
    (c : ConversationLog) : Option (ConversationLog × ℝ) :=
  match c.embedding_vector with
  | none => none
  | some e =>
    if similarity_threshold < SimpleEmbedding.cosine_similarity qe e then
      some (c, SimpleEmbedding.cosine_similarity qe e)
    else none

/-- `MemoryRAGSystem.search_similar_conversations`: embed the query, scan the
100 most recent (optionally user-filtered) rows, keep rows whose cosine
similarity strictly exceeds `similarity_threshold`, sort by similarity
descending (stable) and return the top `max_results` as (row, similarity)
pairs (the Python result dict carries exactly the row and its similarity). -/
noncomputable def search_similar_conversations (vocab : List String)
    (idf : String → ℝ) (similarity_threshold : ℝ) (table : List ConversationLog)
    (user_id : Option String) (query : String) (max_results : ℕ) :
    List (ConversationLog × ℝ) :=
  (sortByKeyDesc (fun p : ConversationLog × ℝ => p.2)
    (((sortByKeyDesc (fun c : ConversationLog => c.created_at)
        (match user_id with
          | some uid => table.filter (fun c => c.user_id = uid)
          | none => table)).take 100).filterMap
      (scanConversation (SimpleEmbedding.embed_text vocab idf query)
        similarity_threshold))).take max_results

/-- The loop body of `MemoryRAGSystem.get_relevant_memories`, with the
combined score `similarity * 0.7 + importance * 0.3` attached (the Python code
attaches it in a second pass over the collected results, before sorting). -/
noncomputable def scanMemory (qe : List ℝ) (similarity_threshold : ℝ)
    (m : Memory) : Option (Memory × ℝ × ℝ) :=
  match m.embedding_vector with
  | none => none
  | some e =>
    if similarity_threshold < SimpleEmbedding.cosine_similarity qe e then
      some (m, SimpleEmbedding.cosine_similarity qe e,
        SimpleEmbedding.cosine_similarity qe e * 0.7 + m.importance_score * 0.3)
    else none

/-- `MemoryRAGSystem.get_relevant_memories`: embed the query, scan the 50
highest-importance rows of the user, keep rows whose similarity strictly
exceeds the threshold, sort by the combined score descending and return the
top `max_results` as (row, similarity, combined) triples.  The
`access_count`/`last_accessed` write-back is a side effect with no influence
on the returned ranking and is not modelled. -/
noncomputable def get_relevant_memories (vocab : List String) (idf : String → ℝ)
    (similarity_threshold : ℝ) (table : List Memory) (user_id : String)
    (query : String) (max_results : ℕ) : List (Memory × ℝ × ℝ) :=
  (sortByKeyDesc (fun x : Memory × ℝ × ℝ => x.2.2)
    (((sortByKeyDesc (fun m : Memory => m.importance_score)
        (table.filter (fun m => m.user_id = user_id))).take 50).filterMap
      (scanMemory (SimpleEmbedding.embed_text vocab idf query)
        similarity_threshold))).take max_results

end MemoryRAG

/-! ## Based RAG retrieval (src/utils/based_rag.py) -/
structure RagEntry where
  user_message : String
  ai_response : String
  timestamp : ℚ
  date : String
  user_embedding : List ℚ
  ai_embedding : List ℚ

namespace BasedRag

/-- The similarity-collection loop of `based_rag.search_similar_conversations`:
for each indexed entry compute the similarity against the user message and the
AI response, keep the larger one, and record entries meeting the threshold
(`max_sim >= similarity_threshold`).  A `ValueError` escaping
`cosine_similarity` aborts the whole loop (`none`). -/
noncomputable def collectSims (similarity_threshold : ℝ) (qe : List ℚ) :
    List (ℕ × RagEntry) → Option (List (ℕ × ℝ × RagEntry))
  | [] => some []
  | (i, conv) :: rest =>
    match cosine_similarity qe conv.user_embedding,
        cosine_similarity qe conv.ai_embedding,
        collectSims similarity_threshold qe rest with
    | some user_sim, some ai_sim, some tail =>
      if similarity_threshold ≤ max user_sim ai_sim then
        some ((i, max user_sim ai_sim, conv) :: tail)
      else some tail
    | _, _, _ => none

/-- `based_rag.search_similar_conversations`: guard on `rag_enabled`, a
nonempty index and a nonempty query, enumerate the index in storage
(chronological) order, filter by threshold, sort by similarity descending
(stable) and return the top `max_results`.  An exception inside the loop is
caught by the surrounding `except` and yields `[]`.  Results are returned as
(index, similarity, entry) triples; the Python code then re-packages them
into display dicts in the same order, which is dropped here. -/
noncomputable def search_similar_conversations (rag_enabled : Bool)
    (similarity_threshold : ℝ) (conversation_index : List RagEntry)
    (query : String) (max_results : ℕ) : List (ℕ × ℝ × RagEntry) :=
  if !rag_enabled || conversation_index.isEmpty || query == "" then []
  else
    match collectSims similarity_threshold (simple_text_embedding query)
        conversation_index.enum with
    | none => []
    | some sims =>
      (sortByKeyDesc (fun x : ℕ × ℝ × RagEntry => x.2.1) sims).take max_results

end BasedRag

/-- A RAG index entry whose stored embeddings are the embedding of the word
the entry contains. -/
def helloEntry : RagEntry where
  user_message := "hello"
  ai_response := "hello"
  timestamp := 0
  date := "2024-01-01"
  user_embedding := BasedRag.simple_text_embedding "hello"
  ai_embedding := BasedRag.simple_text_embedding "hello"

/-! ## Storing conversations (src/memory_rag_system.py, `store_conversation`)

The embedding call is the first effectful statement inside the `try`; when it
raises (modelled by the `embed` parameter returning `none`), control reaches
the `except` handler before any `session.add`/`session.commit`, so nothing is
persisted and the function returns 0.  On success the row is inserted and its
id returned (ids are modelled as the table position plus one; `created_at`
defaults to the insertion order).  The cache update and the follow-up memory
extraction have their own error handling and do not affect the stored turn. -/
def MemoryRAG.store_conversation (embed : String → Option (List ℝ))
    (db : List ConversationLog) (user_id user_message ai_response : String) :
    List ConversationLog × ℕ :=
  match embed (user_message ++ " " ++ ai_response) with
  | none => (db, 0)
  | some v =>
    (db ++ [⟨user_id, user_message, ai_response, (db.length : ℤ), some v⟩],
      db.length + 1)

/-! ## Gemini response controller (src/API/gemini_controller.py)

The controller state is the module-level `conversation_history`,
`last_response` and the `LiveLog.json` contents.  The remote generation call
is an external collaborator; its outcome for the one call a `send_message`
invocation makes is a parameter (`Except Unit` models the API raising).
String cleanup helpers are modelled character-wise so they stay executable:
Python `str.strip()` is `pyStrip`, `text.replace("*", "")` is a character
filter, `re.sub` of the non-greedy one-line bracket patterns is
`stripDelimited`, and `text.split("\n")[0]` is `firstLine`. -/
inductive Role where
  | user
  | assistant
deriving DecidableEq, Repr

structure ChatEntry where
  role : Role
  content : String
deriving DecidableEq, Repr

/-- The `utils.settings` flags read by `_clean_response` and `send_message`. -/
structure Settings where
  stream_chats : Bool
  remove_asterisks : Bool
  rp_suppression : Bool
  newline_cut : Bool

structure GeminiState where
  conversation_history : List ChatEntry
  last_response : String
  live_log : List (String × String)
deriving DecidableEq, Repr

def emptyFallback : String := "I\x27m not sure how to respond to that."

def genFallback : String := "I\x27m having trouble generating a response right now."

def streamFallback : String := "I\x27m having trouble with streaming. Let me try again."

/-- Python `str.strip()`: drop whitespace from both ends. -/
def pyStrip (s : String) : String :=
  String.mk (((s.toList.dropWhile Char.isWhitespace).reverse.dropWhile
    Char.isWhitespace).reverse)

/-- For the non-greedy patterns: scan for the closing character, failing at a
newline (`.` does not match a newline) or at the end of input; on success
return what follows the closing character. -/
def findCloseNoNl (cl : Char) : List Char → Option (List Char)
  | [] => none
  | c :: rest =>
    if c = cl then some rest
    else if c = '\n' then none
    else findCloseNoNl cl rest

/-- `re.sub(pattern, "", text)` for the non-greedy single-line patterns
`\[.*?\]` and `\(.*?\)`: scanning left to right, each opener is matched with
the nearest closer not separated by a newline and the matched span is dropped;
an opener with no such closer is kept and scanning resumes after it. -/
def stripDelimitedAux (op cl : Char) : List Char → List Char
  | [] => []
  | c :: rest =>
    if c = op then
      match h : findCloseNoNl cl rest with
      | some rest' => stripDelimitedAux op cl rest'
      | none => c :: stripDelimitedAux op cl rest
    else c :: stripDelimitedAux op cl rest
termination_by l => l.length
decreasing_by
  · have hlen : ∀ (l r : List Char), findCloseNoNl cl l = some r →
        r.length ≤ l.length := by
      intro l
      induction l with
      | nil => intro r h2; exact absurd h2 (by simp [findCloseNoNl])
      | cons c2 rest2 ih =>
        intro r h2
        simp only [findCloseNoNl] at h2
        split at h2
        · cases h2; exact Nat.le_succ _
        · split at h2
          · exact absurd h2 (by simp)
          · exact le_trans (ih r h2) (Nat.le_succ _)
    exact Nat.lt_succ_of_le (hlen rest rest' h)
  · exact Nat.lt_succ_self _
  · exact Nat.lt_succ_self _

def stripDelimited (op cl : Char) (t : String) : String :=
  String.mk (stripDelimitedAux op cl t.toList)

def prefixes_to_remove : List String := ["Assistant:", "AI:", "Response:", "Reply:"]

/-- One iteration of the role-marker removal loop:
`if text.strip().startswith(p): text = text.strip()[len(p):].strip()`. -/
def stripRoleMarker (text : String) (p : String) : String :=
  if p.toList.isPrefixOf (pyStrip text).toList then
    pyStrip (String.mk ((pyStrip text).toList.drop p.length))
  else text

def removeRoleMarkers (text : String) : String :=
  prefixes_to_remove.foldl stripRoleMarker text

/-- `text.replace("*", "")` for a single-character pattern: drop every `*`. -/
def removeAsterisksFn (t : String) : String :=
  String.mk (t.toList.filter (fun c => c ≠ '*'))

/-- `text.split("\n")` followed by taking the first element. -/
def firstLine (t : String) : String :=
  String.mk (t.toList.takeWhile (fun c => c ≠ '\n'))

/-- `_clean_response`: empty text gets the canned substitute; otherwise strip
role markers, optionally drop asterisks, optionally drop bracket/paren stage
directions, optionally cut at the first newline, and finally strip. -/
def clean_response (st : Settings) (text : String) : String :=
  if text = "" then emptyFallback
  else
    let t1 := removeRoleMarkers text
    let t2 := if st.remove_asterisks then removeAsterisksFn t1 else t1
    let t3 := if st.rp_suppression then
        stripDelimited '(' ')' (stripDelimited '[' ']' t2)
      else t2
    let t4 := if st.newline_cut then firstLine t3 else t3
    pyStrip t4

/-- `_save_conversation_log`: look at the last two history entries, take the
(last) user content and the (last) assistant content among them, and append
the pair to the log when both are nonempty. -/
def save_conversation_log (log : List (String × String))
    (history : List ChatEntry) : List (String × String) :=
  let lastTwo := history.drop (history.length - 2)
  let user_message :=
    ((lastTwo.filter (fun e => e.role = Role.user)).map (fun e => e.content)).getLastD ""
  let assistant_message :=
    ((lastTwo.filter (fun e => e.role = Role.assistant)).map (fun e => e.content)).getLastD ""
  if user_message ≠ "" ∧ assistant_message ≠ "" then
    log ++ [(user_message, assistant_message)]
  else log

/-- `send_message`: append the user turn, call the provider (streaming or
single-shot, each with its own internal error handling and fixed fallback
string), clean the text, append the assistant turn, set `last_response` and
save the log.  `genComplete` is the outcome of
`current_model.generate_content(...)` inside `_generate_complete_response`
(`Except.error` models the call raising, in which case that helper returns its
fallback); `genStream` likewise for the streaming call, yielding the chunk
texts.  Cooperative cancellation (`should_stop_generation`) is not requested
in the modelled run. -/
def send_message (st : Settings) (genComplete : Except Unit String)
    (genStream : Except Unit (List String)) (s : GeminiState)
    (user_input : String) : GeminiState :=
  let hist1 := s.conversation_history ++ [⟨Role.user, user_input⟩]
  let raw : String :=
    if st.stream_chats then
      match genStream with
      | .ok chunks => String.join (chunks.filter (fun c => c ≠ ""))
      | .error _ => streamFallback
    else
      match genComplete with
      | .ok t => if t = "" then emptyFallback else t
      | .error _ => genFallback
  let resp := clean_response st raw
  let hist2 := hist1 ++ [⟨Role.assistant, resp⟩]
  { conversation_history := hist2
    last_response := resp
    live_log := save_conversation_log s.live_log hist2 }

/-- The reverse scan for the most recent user turn in
`regenerate_last_response`. -/
def lastUserContent (h : List ChatEntry) : Option String :=
  (h.reverse.find? (fun e => e.role = Role.user)).map (fun e => e.content)

/-- `regenerate_last_response`: only act when the history has at least two
entries; pop the last entry when it is an assistant turn; then resend the most
recent user content through `send_message` when one exists and is truthy
(`if last_user_message:` - Python treats both `None` and the empty string as
falsy, so an empty user content is not resent). -/
def regenerate_last_response (st : Settings) (genComplete : Except Unit String)
    (genStream : Except Unit (List String)) (s : GeminiState) : GeminiState :=
  if 2 ≤ s.conversation_history.length then
    let h1 := match s.conversation_history.getLast? with
      | some e =>
        if e.role = Role.assistant then s.conversation_history.dropLast
        else s.conversation_history
      | none => s.conversation_history
    match lastUserContent h1 with
    | some u =>
      if u = "" then { s with conversation_history := h1 }
      else send_message st genComplete genStream
        { s with conversation_history := h1 } u
    | none => { s with conversation_history := h1 }
  else s

/-! ## Pipe dispatcher (src/utils/uni_pipes.py)

State: the `main_pipe_running` flag and the FIFO `pipe_queue`, each queued
request represented by its `is_main` flag (the process name only selects the
handler, and handler exceptions are caught, so the flag dynamics do not depend
on it).  `start_new_pipe` sets the flag (for a main pipe) and enqueues;
`execute_pipe` is the dispatcher popping one request, running its handler to
completion and, in the `finally`, clearing the flag when the request was main.
The enqueue guard is the claimed foreground-loop precondition from
src/main.py: a main pipe is only started after the wait loop has seen
`main_pipe_running` false. -/
structure PipeState where
  main_pipe_running : Bool
  pipe_queue : List Bool
deriving DecidableEq, Repr

inductive PipeStep : PipeState → PipeState → Prop where
  | start_new_pipe (s : PipeState) (is_main_pipe : Bool)
      (hguard : is_main_pipe = true → s.main_pipe_running = false) :
      PipeStep s ⟨s.main_pipe_running || is_main_pipe, s.pipe_queue ++ [is_main_pipe]⟩
  | execute_pipe (s : PipeState) (m : Bool) (rest : List Bool)
      (hpop : s.pipe_queue = m :: rest) :
      PipeStep s ⟨if m then false else s.main_pipe_running, rest⟩

/-- Reachability from the module-initial state: flag down, queue empty. -/
def PipeReachable (s : PipeState) : Prop :=
  Relation.ReflTransGen PipeStep ⟨false, []⟩ s

/-- Number of `is_main=true` requests in flight (queued or marked running). -/
def mainCount (q : List Bool) : ℕ := q.count true

/-! ## Alarms (src/utils/alarm.py)

An alarm record as stored in `alarms.json`; `last_triggered` models
`alarm.get("last_triggered", "")` (the default applied).  `should_trigger_alarm`
parses the `"HH:MM"` time with `strptime` (any failure is caught and yields
`False`), compares the current time of day against it, and fires only when the
alarm has not already been triggered today (`strftime("%Y-%m-%d")`
comparison).  The `enabled` field is never read by this function. -/
structure Alarm where
  name : String
  time : String
  message : String
  recurring : Bool
  enabled : Bool
  last_triggered : String
deriving DecidableEq, Repr

structure DateTime where
  year : ℕ
  month : ℕ
  day : ℕ
  hour : ℕ
  minute : ℕ
deriving DecidableEq, Repr

def digitsToNat (l : List Char) : ℕ :=
  l.foldl (fun acc c => 10 * acc + (c.toNat - '0'.toNat)) 0

/-- `datetime.strptime(s, "%H:%M")`: one or two digits, a colon, one or two
digits, nothing else; hours below 24, minutes below 60. -/
def parseHM (s : String) : Option (ℕ × ℕ) :=
  let hd := s.toList.takeWhile Char.isDigit
  match s.toList.dropWhile Char.isDigit with
  | ':' :: md =>
    if hd ≠ [] ∧ hd.length ≤ 2 ∧ md ≠ [] ∧ md.length ≤ 2 ∧ md.all Char.isDigit ∧
        digitsToNat hd < 24 ∧ digitsToNat md < 60 then
      some (digitsToNat hd, digitsToNat md)
    else none
  | _ => none

def digitChar (n : ℕ) : Char := Char.ofNat ('0'.toNat + n % 10)

def pad2 (n : ℕ) : String := String.mk [digitChar (n / 10), digitChar n]

def pad4 (n : ℕ) : String :=
  String.mk [digitChar (n / 1000), digitChar (n / 100), digitChar (n / 10), digitChar n]

/-- `current_time.strftime("%Y-%m-%d")` (for years below 10000). -/
def strftimeDate (t : DateTime) : String :=
  pad4 t.year ++ "-" ++ pad2 t.month ++ "-" ++ pad2 t.day

/-- `should_trigger_alarm(alarm, current_time)`. -/
def should_trigger_alarm (alarm : Alarm) (current_time : DateTime) : Bool :=
  match parseHM alarm.time with
  | none => false
  | some (h, m) =>
    if h < current_time.hour ∨ (h = current_time.hour ∧ m ≤ current_time.minute) then
      alarm.last_triggered != strftimeDate current_time
    else false

/-! ## Tag task controller (src/utils/tag_task_controller.py)

State: the `active_tags` set (as a duplicate-free list) and the append-only
`tag_history` (tag, action, timestamp).  Timestamps (`time.time()`) are ℚ.
`add_tags` adds each not-yet-active tag, appends an "added" history entry per
genuinely added tag, and finally evicts one oldest-history tag when the active
set exceeds `max_active_tags` (that eviction appends no history entry);
`remove_tags` removes active tags and appends "removed" entries;
`decay_old_tags` collects active tags whose "added" entry is older than the
decay time and removes them; `rebuild_active_tags_from_history` replays the
history (skipping entries older than the decay time) into an
insertion-ordered dict and takes its keys.  The task-profile side effect and
logging are not modelled.  The decay time is the module constant 3600,
carried as the parameter `D` so the claim can speak about a general TTL. -/
structure HistoryEntry where
  tag : String
  added : Bool
  timestamp : ℚ
deriving DecidableEq, Repr

structure TagState where
  active_tags : List String
  tag_history : List HistoryEntry
deriving DecidableEq, Repr

def initialTagState : TagState := ⟨[], []⟩

def max_active_tags : ℕ := 10

def addOneTag (t : ℚ) (s : TagState) (tag : String) : TagState :=
  if tag ∈ s.active_tags then s
  else ⟨s.active_tags ++ [tag], s.tag_history ++ [⟨tag, true, t⟩]⟩

def insertByKeyAsc {α : Type} {β : Type} [LinearOrder β] (key : α → β) (x : α) :
    List α → List α
  | [] => [x]
  | y :: ys => if key y < key x then y :: insertByKeyAsc key x ys else x :: y :: ys

def sortByKeyAsc {α : Type} {β : Type} [LinearOrder β] (key : α → β) :
    List α → List α
  | [] => []
  | x :: xs => insertByKeyAsc key x (sortByKeyAsc key xs)

/-- The `len(active_tags) > max_active_tags` branch at the end of `add_tags`:
walk the history sorted by timestamp and remove the first entry's tag that is
still active (one tag only; no history entry is appended). -/
def evictOldest (s : TagState) : TagState :=
  if max_active_tags < s.active_tags.length then
    match (sortByKeyAsc (fun e : HistoryEntry => e.timestamp) s.tag_history).find?
        (fun e => decide (e.tag ∈ s.active_tags)) with
    | some e => { s with active_tags := s.active_tags.erase e.tag }
    | none => s
  else s

def add_tags (t : ℚ) (tags : List String) (s : TagState) : TagState :=
  if tags = [] then s
  else evictOldest (tags.foldl (addOneTag t) s)

def removeOneTag (t : ℚ) (s : TagState) (tag : String) : TagState :=
  if tag ∈ s.active_tags then
    ⟨s.active_tags.erase tag, s.tag_history ++ [⟨tag, false, t⟩]⟩
  else s

def remove_tags (t : ℚ) (tags : List String) (s : TagState) : TagState :=
  tags.foldl (removeOneTag t) s

/-- The `tags_to_remove` set of `decay_old_tags`: active tags with an "added"
history entry strictly older than the decay time `D`. -/
def decayCandidates (D t : ℚ) (s : TagState) : List String :=
  ((s.tag_history.reverse.filter (fun e =>
    e.added && decide (e.tag ∈ s.active_tags) && decide (D < t - e.timestamp))).map
      (fun e => e.tag)).dedup

def decay_old_tags (D t : ℚ) (s : TagState) : TagState :=
  if s.active_tags = [] then s
  else if decayCandidates D t s = [] then s
  else remove_tags t (decayCandidates D t s) s

/-- Python dict assignment `states[k] = v`: update in place or append. -/
def setAssoc (k : String) (v : ℚ) : List (String × ℚ) → List (String × ℚ)
  | [] => [(k, v)]
  | (k', v') :: rest => if k' = k then (k, v) :: rest else (k', v') :: setAssoc k v rest

/-- Python `del states[k]` (for a duplicate-free association list). -/
def delAssoc (k : String) : List (String × ℚ) → List (String × ℚ)
  | [] => []
  | (k', v') :: rest => if k' = k then rest else (k', v') :: delAssoc k rest

def rebuildStep (D t : ℚ) (states : List (String × ℚ)) (e : HistoryEntry) :
    List (String × ℚ) :=
  if D < t - e.timestamp then states
  else if e.added then setAssoc e.tag e.timestamp states
  else delAssoc e.tag states

def rebuildStates (D t : ℚ) (history : List HistoryEntry) : List (String × ℚ) :=
  history.foldl (rebuildStep D t) []

def rebuild_active_tags_from_history (D t : ℚ) (s : TagState) : TagState :=
  { s with active_tags := (rebuildStates D t s.tag_history).map Prod.fst }

def get_active_tags (s : TagState) : List String := s.active_tags

/-- The externally-triggered operations on the tag state, each stamped with
the wall-clock time at which it runs. -/
inductive TagEvent where
  | add (tags : List String)
  | remove (tags : List String)
  | decay
  | rebuild
deriving DecidableEq, Repr

def applyTagEvent (D : ℚ) (s : TagState) : TagEvent × ℚ → TagState
  | (TagEvent.add tags, t) => add_tags t tags s
  | (TagEvent.remove tags, t) => remove_tags t tags s
  | (TagEvent.decay, t) => decay_old_tags D t s
  | (TagEvent.rebuild, t) => rebuild_active_tags_from_history D t s

def runTagTrace (D : ℚ) (s : TagState) (evs : List (TagEvent × ℚ)) : TagState :=
  evs.foldl (applyTagEvent D) s

/-- Whether an event adds or removes the given tag. -/
def mentionsTag (ev : TagEvent) (tag : String) : Prop :=
  match ev with
  | TagEvent.add tags => tag ∈ tags
  | TagEvent.remove tags => tag ∈ tags
  | TagEvent.decay => False
  | TagEvent.rebuild => False

/-- Number of tags named by the event's add list. -/
def eventAdds : TagEvent → ℕ
  | TagEvent.add tags => tags.length
  | _ => 0

def totalAdds (evs : List (TagEvent × ℚ)) : ℕ :=
  (evs.map (fun p => eventAdds p.1)).sum

def addEntries (s : TagState) : ℕ := (s.tag_history.filter (fun e => e.added)).length

/-- The tag has not been seen yet: inactive and absent from the history. -/
def Fresh (tag : String) (s : TagState) : Prop :=
  tag ∉ s.active_tags ∧ ∀ e ∈ s.tag_history, e.tag ≠ tag

/-- The tag is active, added once at time `T`, never removed. -/
def Good (tag : String) (T : ℚ) (s : TagState) : Prop :=
  tag ∈ s.active_tags ∧ (⟨tag, true, T⟩ : HistoryEntry) ∈ s.tag_history ∧
  ∀ e ∈ s.tag_history, e.tag = tag → e = ⟨tag, true, T⟩

/-- The tag is inactive and all its "added" history entries carry time `T`. -/
def Dead (tag : String) (T : ℚ) (s : TagState) : Prop :=
  tag ∉ s.active_tags ∧
  ∀ e ∈ s.tag_history, e.tag = tag → e.added = true → e.timestamp = T

/-- Structural invariant: the active set is duplicate-free and no larger than
the number of "added" history entries. -/
def TagInv (s : TagState) : Prop :=
  s.active_tags.Nodup ∧ s.active_tags.length ≤ addEntries s

/-! # Theorems -/

theorem sumSq_nonneg {α : Type} [LinearOrderedCommRing α] (v : List α) :
    0 ≤ sumSq v := by
  induction v with
  | nil => simp [sumSq]
  | cons a t ih =>
    have := mul_self_nonneg a
    simp only [sumSq]
    linarith

theorem sumSq_eq_zero_iff {α : Type} [LinearOrderedCommRing α] (v : List α) :
    sumSq v = 0 ↔ ∀ a ∈ v, a = 0 := by
  induction v with
  | nil => simp [sumSq]
  | cons a t ih =>
    simp only [sumSq, List.mem_cons]
    constructor
    · intro h
      have ha := mul_self_nonneg a
      have ht := sumSq_nonneg t
      have ha0 : a * a = 0 := by linarith
      have ht0 : sumSq t = 0 := by linarith
      have := mul_self_eq_zero.mp ha0
      exact fun b hb => hb.elim (fun hb => hb ▸ this) (fun hb => (ih.mp ht0) b hb)
    · intro h
      have ha : a = 0 := h a (Or.inl rfl)
      have ht : sumSq t = 0 := ih.mpr (fun b hb => h b (Or.inr hb))
      simp [ha, ht]

theorem dotList_zero_right {α : Type} [LinearOrderedCommRing α] :
    ∀ v1 v2 : List α, (∀ c ∈ v2, c = 0) → dotList v1 v2 = 0 := by
  intro v1
  induction v1 with
  | nil => intro v2 _; cases v2 <;> rfl
  | cons a t1 ih =>
    intro v2 h
    cases v2 with
    | nil => rfl
    | cons b t2 =>
      have hb : b = 0 := h b (List.mem_cons_self _ _)
      have ht : dotList t1 t2 = 0 := ih t2 (fun c hc => h c (List.mem_cons_of_mem _ hc))
      simp [dotList, hb, ht]

/-- Cauchy–Schwarz for the list dot product (also valid for unequal lengths,
since the zip truncates while the squared norms only grow). -/
theorem dotList_sq_le {α : Type} [LinearOrderedCommRing α] :
    ∀ v1 v2 : List α, dotList v1 v2 ^ 2 ≤ sumSq v1 * sumSq v2 := by
  intro v1
  induction v1 with
  | nil =>
    intro v2
    cases v2 <;> simp [dotList, sumSq]
  | cons a t1 ih =>
    intro v2
    cases v2 with
    | nil => simp [dotList, sumSq]
    | cons b t2 =>
      have hIH := ih t2
      have hs1 := sumSq_nonneg t1
      have hs2 := sumSq_nonneg t2
      simp only [dotList, sumSq]
      rcases eq_or_lt_of_le hs2 with h0 | hpos
      · have hz : ∀ c ∈ t2, c = 0 := (sumSq_eq_zero_iff t2).mp h0.symm
        have hd : dotList t1 t2 = 0 := dotList_zero_right t1 t2 hz
        rw [hd, ← h0]
        nlinarith [mul_nonneg hs1 (mul_self_nonneg b)]
      · nlinarith [sq_nonneg (a * sumSq t2 - b * dotList t1 t2),
          mul_nonneg (mul_self_nonneg b) (sub_nonneg.mpr hIH),
          mul_nonneg hs2 (sub_nonneg.mpr hIH), hpos,
          mul_nonneg hs1 hs2, mul_self_nonneg a, mul_self_nonneg b]

theorem dotList_self_eq_sumSq {α : Type} [Mul α] [Add α] [Zero α] (v : List α) :
    dotList v v = sumSq v := by
  induction v with
  | nil => rfl
  | cons a t ih => simp [dotList, sumSq, ih]

/-- The normalized dot product of two real vectors with nonzero norms lies in
the closed interval from -1 to 1 (Cauchy–Schwarz). -/
theorem normalized_dot_mem_Icc (v1 v2 : List ℝ)
    (h1 : Real.sqrt (sumSq v1) ≠ 0) (h2 : Real.sqrt (sumSq v2) ≠ 0) :
    dotList v1 v2 / (Real.sqrt (sumSq v1) * Real.sqrt (sumSq v2)) ∈
      Set.Icc (-1 : ℝ) 1 := by
  have p1 : 0 < Real.sqrt (sumSq v1) := lt_of_le_of_ne (Real.sqrt_nonneg _) (Ne.symm h1)
  have p2 : 0 < Real.sqrt (sumSq v2) := lt_of_le_of_ne (Real.sqrt_nonneg _) (Ne.symm h2)
  have hprod : 0 < Real.sqrt (sumSq v1) * Real.sqrt (sumSq v2) := mul_pos p1 p2
  have hcs : dotList v1 v2 ^ 2 ≤ sumSq v1 * sumSq v2 := dotList_sq_le v1 v2
  have habs : |dotList v1 v2| ≤ Real.sqrt (sumSq v1) * Real.sqrt (sumSq v2) := by
    rw [← Real.sqrt_sq_eq_abs, ← Real.sqrt_mul (sumSq_nonneg v1)]
    exact Real.sqrt_le_sqrt hcs
  constructor
  · rw [le_div_iff₀ hprod]
    have := neg_abs_le (dotList v1 v2)
    linarith
  · rw [div_le_one hprod]
    have := le_abs_self (dotList v1 v2)
    linarith

namespace SimpleEmbedding

theorem cosine_similarity_mem_Icc (v1 v2 : List ℝ) :
    cosine_similarity v1 v2 ∈ Set.Icc (-1 : ℝ) 1 := by
  unfold cosine_similarity
  by_cases hlen : v1.length ≠ v2.length
  · simp [hlen]
  · rw [if_neg hlen]
    by_cases hz : Real.sqrt (sumSq v1) = 0 ∨ Real.sqrt (sumSq v2) = 0
    · simp [hz]
    · rw [if_neg hz]
      push_neg at hz
      exact normalized_dot_mem_Icc v1 v2 hz.1 hz.2

theorem cosine_similarity_of_length_ne (v1 v2 : List ℝ) (h : v1.length ≠ v2.length) :
    cosine_similarity v1 v2 = 0 := by
  unfold cosine_similarity
  simp [h]

theorem cosine_similarity_of_zero (v1 v2 : List ℝ)
    (h : sumSq v1 = 0 ∨ sumSq v2 = 0) :
    cosine_similarity v1 v2 = 0 := by
  unfold cosine_similarity
  have h' : Real.sqrt (sumSq v1) = 0 ∨ Real.sqrt (sumSq v2) = 0 := by
    rcases h with h | h
    · exact Or.inl (by rw [h, Real.sqrt_zero])
    · exact Or.inr (by rw [h, Real.sqrt_zero])
  by_cases hlen : v1.length ≠ v2.length
  · simp [hlen]
  · simp [hlen, h']

/-- A vector with nonzero squared norm has cosine similarity exactly 1 with
itself: the dot product equals the squared norm and cancels against it. -/
theorem cosine_similarity_self (v : List ℝ) (h : sumSq v ≠ 0) :
    cosine_similarity v v = 1 := by
  have hs : 0 < sumSq v := lt_of_le_of_ne (sumSq_nonneg v) (Ne.symm h)
  have hsqrt : Real.sqrt (sumSq v) ≠ 0 := by
    intro hc
    rw [Real.sqrt_eq_zero (sumSq_nonneg v)] at hc
    exact h hc
  unfold cosine_similarity
  rw [if_neg (by simp), if_neg (by simp [hsqrt])]
  rw [dotList_self_eq_sumSq, Real.mul_self_sqrt (sumSq_nonneg v)]
  exact div_self h

end SimpleEmbedding

namespace BasedRag

theorem cosine_similarity_empty (vec1 vec2 : List ℚ)
    (h : vec1 = [] ∨ vec2 = []) : cosine_similarity vec1 vec2 = some 0 := by
  unfold cosine_similarity
  rcases h with h | h <;> simp [h]

theorem cosine_similarity_mismatch (vec1 vec2 : List ℚ)
    (h1 : vec1 ≠ []) (h2 : vec2 ≠ []) (hlen : vec1.length ≠ vec2.length) :
    cosine_similarity vec1 vec2 = none := by
  unfold cosine_similarity
  simp [h1, h2, hlen]

theorem cosine_similarity_eq_length (vec1 vec2 : List ℚ)
    (hlen : vec1.length = vec2.length) :
    ∃ r : ℝ, cosine_similarity vec1 vec2 = some r ∧ r ∈ Set.Icc (-1 : ℝ) 1 := by
  unfold cosine_similarity
  by_cases he : vec1.isEmpty || vec2.isEmpty
  · exact ⟨0, by simp [he], by constructor <;> norm_num⟩
  · rw [if_neg he, if_neg (by simp [hlen])]
    by_cases hz : Real.sqrt (sumSq (toReal vec1)) = 0 ∨
        Real.sqrt (sumSq (toReal vec2)) = 0
    · exact ⟨0, by rw [if_pos hz], by constructor <;> norm_num⟩
    · push_neg at hz
      refine ⟨_, by rw [if_neg (not_or.mpr (by exact ⟨hz.1, hz.2⟩))], ?_⟩
      exact normalized_dot_mem_Icc _ _ hz.1 hz.2

end BasedRag

section StableSort

variable {α : Type} {β : Type} [LinearOrder β]

theorem mem_insertByKeyDesc (key : α → β) (x : α) (l : List α) (z : α) :
    z ∈ insertByKeyDesc key x l ↔ z = x ∨ z ∈ l := by
  induction l with
  | nil => simp [insertByKeyDesc]
  | cons y ys ih =>
    simp only [insertByKeyDesc]
    by_cases h : key x < key y
    · rw [if_pos h]
      simp only [List.mem_cons, ih]
      tauto
    · rw [if_neg h]
      simp only [List.mem_cons]

theorem mem_sortByKeyDesc (key : α → β) (l : List α) (z : α) :
    z ∈ sortByKeyDesc key l ↔ z ∈ l := by
  induction l with
  | nil => simp [sortByKeyDesc]
  | cons x xs ih =>
    simp only [sortByKeyDesc, mem_insertByKeyDesc, List.mem_cons, ih]

theorem length_insertByKeyDesc (key : α → β) (x : α) (l : List α) :
    (insertByKeyDesc key x l).length = l.length + 1 := by
  induction l with
  | nil => rfl
  | cons y ys ih =>
    simp only [insertByKeyDesc]
    by_cases h : key x < key y
    · rw [if_pos h]; simp [ih]
    · rw [if_neg h]; simp

theorem length_sortByKeyDesc (key : α → β) (l : List α) :
    (sortByKeyDesc key l).length = l.length := by
  induction l with
  | nil => rfl
  | cons x xs ih => simp [sortByKeyDesc, length_insertByKeyDesc, ih]

theorem insertByKeyDesc_pairwise (key : α → β) (R : α → α → Prop) (x : α)
    (l : List α) (hl : l.Pairwise (KeyLex key R)) (hx : ∀ y ∈ l, R x y) :
    (insertByKeyDesc key x l).Pairwise (KeyLex key R) := by
  induction l with
  | nil => simp [insertByKeyDesc, List.Pairwise]
  | cons y ys ih =>
    rcases List.pairwise_cons.mp hl with ⟨hy, hys⟩
    simp only [insertByKeyDesc]
    by_cases h : key x < key y
    · rw [if_pos h]
      refine List.pairwise_cons.mpr ⟨?_, ih hys (fun z hz => hx z (List.mem_cons_of_mem _ hz))⟩
      intro z hz
      rcases (mem_insertByKeyDesc key x ys z).mp hz with hzx | hzy
      · exact hzx ▸ Or.inl h
      · exact hy z hzy
    · rw [if_neg h]
      refine List.pairwise_cons.mpr ⟨?_, hl⟩
      intro z hz
      rcases List.mem_cons.mp hz with hzy | hzys
      · rcases lt_or_eq_of_le (not_lt.mp h) with hlt | heq
        · exact hzy ▸ Or.inl hlt
        · exact hzy ▸ Or.inr ⟨heq.symm, hx y (by simp)⟩
      · rcases hy z hzys with hlt | ⟨heq, _⟩
        · rcases lt_or_eq_of_le (not_lt.mp h) with hlt' | heq'
          · exact Or.inl (lt_trans hlt hlt')
          · exact Or.inl (heq' ▸ hlt)
        · rcases lt_or_eq_of_le (not_lt.mp h) with hlt' | heq'
          · exact Or.inl (heq ▸ hlt')
          · exact Or.inr ⟨heq' ▸ heq, hx z (List.mem_cons_of_mem _ hzys)⟩

/-- Stable sort of a list whose elements pairwise satisfy `R` yields a list
ordered by key descending with `R` deciding the order among equal keys. -/
theorem sortByKeyDesc_pairwise (key : α → β) (R : α → α → Prop) (l : List α)
    (hl : l.Pairwise R) :
    (sortByKeyDesc key l).Pairwise (KeyLex key R) := by
  induction l with
  | nil => simp [sortByKeyDesc]
  | cons x xs ih =>
    rcases List.pairwise_cons.mp hl with ⟨hx, hxs⟩
    exact insertByKeyDesc_pairwise key R x _ (ih hxs)
      (fun y hy => hx y ((mem_sortByKeyDesc key xs y).mp hy))

/-- The sorted list is nonincreasing in the key. -/
theorem sortByKeyDesc_sorted (key : α → β) (l : List α) :
    (sortByKeyDesc key l).Pairwise (fun a b => key b ≤ key a) := by
  have h := sortByKeyDesc_pairwise key (fun _ _ => True) l
    (List.pairwise_iff_forall_sublist.mpr (fun _ => trivial))
  exact h.imp (fun hab => hab.elim le_of_lt (fun hab => le_of_eq hab.1.symm))

end StableSort

theorem sumSq_ne_zero_of_mem {α : Type} [LinearOrderedCommRing α] {v : List α}
    {a : α} (ha : a ∈ v) (hne : a ≠ 0) : sumSq v ≠ 0 := by
  intro h
  exact hne ((sumSq_eq_zero_iff v).mp h a ha)

theorem normalized_dot_self (v : List ℝ) (h : sumSq v ≠ 0) :
    dotList v v / (Real.sqrt (sumSq v) * Real.sqrt (sumSq v)) = 1 := by
  rw [dotList_self_eq_sumSq, Real.mul_self_sqrt (sumSq_nonneg v)]
  exact div_self h

theorem sumSq_toReal (v : List ℚ) : sumSq (BasedRag.toReal v) = ((sumSq v : ℚ) : ℝ) := by
  induction v with
  | nil => simp [BasedRag.toReal, sumSq]
  | cons a t ih =>
    simp only [BasedRag.toReal, List.map_cons] at ih ⊢
    simp only [sumSq]
    rw [ih]
    push_cast
    ring

theorem dotList_toReal (v w : List ℚ) :
    dotList (BasedRag.toReal v) (BasedRag.toReal w) = ((dotList v w : ℚ) : ℝ) := by
  induction v generalizing w with
  | nil => cases w <;> simp [BasedRag.toReal, dotList]
  | cons a t ih =>
    cases w with
    | nil => simp [BasedRag.toReal, dotList]
    | cons b u =>
      have ihu := ih u
      simp only [BasedRag.toReal, List.map_cons] at ihu ⊢
      simp only [dotList]
      rw [ihu]
      push_cast
      ring

theorem MemoryRAG.scanMemory_eq_some {qe : List ℝ} {th : ℝ} {m : Memory}
    {x : Memory × ℝ × ℝ} (h : MemoryRAG.scanMemory qe th m = some x) :
    x.1 = m ∧ th < x.2.1 ∧ x.2.2 = x.2.1 * 0.7 + x.1.importance_score * 0.3 := by
  unfold MemoryRAG.scanMemory at h
  split at h
  · exact absurd h (by simp)
  · split at h
    · rename_i hth
      cases h
      exact ⟨rfl, hth, rfl⟩
    · exact absurd h (by simp)

theorem MemoryRAG.scanConversation_eq_some {qe : List ℝ} {th : ℝ}
    {c : ConversationLog} {x : ConversationLog × ℝ}
    (h : MemoryRAG.scanConversation qe th c = some x) :
    x.1 = c ∧ th < x.2 := by
  unfold MemoryRAG.scanConversation at h
  split at h
  · exact absurd h (by simp)
  · split at h
    · rename_i hth
      cases h
      exact ⟨rfl, hth⟩
    · exact absurd h (by simp)

theorem BasedRag.cosine_similarity_self_one (v : List ℚ) (hv : v ≠ [])
    (h : sumSq v ≠ 0) : BasedRag.cosine_similarity v v = some 1 := by
  have hR : sumSq (BasedRag.toReal v) ≠ 0 := by
    rw [sumSq_toReal]
    exact_mod_cast h
  have hsqrt : Real.sqrt (sumSq (BasedRag.toReal v)) ≠ 0 := by
    intro hc
    rw [Real.sqrt_eq_zero (by rw [sumSq_toReal]; exact_mod_cast sumSq_nonneg v)] at hc
    exact hR hc
  unfold cosine_similarity
  rw [if_neg (by simp [hv]), if_neg (by simp), if_neg (by simp [hsqrt])]
  rw [normalized_dot_self _ hR]

theorem fst_le_of_mem_enumFrom {α : Type} :
    ∀ (xs : List α) (n : ℕ) (p : ℕ × α), p ∈ List.enumFrom n xs → n ≤ p.1 := by
  intro xs
  induction xs with
  | nil => intro n p h; simp [List.enumFrom] at h
  | cons x t ih =>
    intro n p h
    rcases List.mem_cons.mp h with h | h
    · subst h; exact le_refl n
    · exact le_trans (Nat.le_succ n) (ih (n + 1) p h)

theorem pairwise_enumFrom {α : Type} :
    ∀ (xs : List α) (n : ℕ), (List.enumFrom n xs).Pairwise (fun a b => a.1 < b.1) := by
  intro xs
  induction xs with
  | nil => intro n; simp [List.enumFrom]
  | cons x t ih =>
    intro n
    refine List.pairwise_cons.mpr ⟨?_, ih (n + 1)⟩
    intro p hp
    exact lt_of_lt_of_le (Nat.lt_succ_self n) (fst_le_of_mem_enumFrom t (n + 1) p hp)

theorem pairwise_enum {α : Type} (xs : List α) :
    (List.enum xs).Pairwise (fun a b => a.1 < b.1) :=
  pairwise_enumFrom xs 0

/-- Every entry kept by the based-RAG collection loop meets the threshold, and
its index comes from the scanned input. -/
theorem BasedRag.collectSims_spec (th : ℝ) (qe : List ℚ) :
    ∀ (input : List (ℕ × RagEntry)) (l : List (ℕ × ℝ × RagEntry)),
      BasedRag.collectSims th qe input = some l →
      ∀ x ∈ l, th ≤ x.2.1 ∧ ∃ p ∈ input, x.1 = p.1 := by
  intro input
  induction input with
  | nil =>
    intro l h x hx
    simp only [BasedRag.collectSims] at h
    cases h
    simp at hx
  | cons hd rest ih =>
    intro l h x hx
    obtain ⟨i, conv⟩ := hd
    simp only [BasedRag.collectSims] at h
    split at h
    · rename_i user_sim ai_sim tail hu hv htail
      split at h
      · rename_i hth
        cases h
        rcases List.mem_cons.mp hx with hx | hx
        · subst hx
          exact ⟨hth, ⟨(i, conv), List.mem_cons_self _ _, rfl⟩⟩
        · obtain ⟨hth', p, hp, hpi⟩ := ih _ htail x hx
          exact ⟨hth', p, List.mem_cons_of_mem _ hp, hpi⟩
      · cases h
        obtain ⟨hth', p, hp, hpi⟩ := ih _ htail x hx
        exact ⟨hth', p, List.mem_cons_of_mem _ hp, hpi⟩
    · exact absurd h (by simp)

/-- The collection loop preserves the strictly increasing scan order of
indices. -/
theorem BasedRag.collectSims_pairwise (th : ℝ) (qe : List ℚ) :
    ∀ (input : List (ℕ × RagEntry)) (l : List (ℕ × ℝ × RagEntry)),
      BasedRag.collectSims th qe input = some l →
      input.Pairwise (fun p q => p.1 < q.1) →
      l.Pairwise (fun a b => a.1 < b.1) := by
  intro input
  induction input with
  | nil =>
    intro l h _
    simp only [BasedRag.collectSims] at h
    cases h
    simp
  | cons hd rest ih =>
    intro l h hpw
    obtain ⟨i, conv⟩ := hd
    rcases List.pairwise_cons.mp hpw with ⟨hhd, hrest⟩
    simp only [BasedRag.collectSims] at h
    split at h
    · rename_i user_sim ai_sim tail hu hv htail
      split at h
      · cases h
        refine List.pairwise_cons.mpr ⟨?_, ih _ htail hrest⟩
        intro b hb
        obtain ⟨_, p, hp, hpi⟩ := BasedRag.collectSims_spec th qe rest _ htail b hb
        exact hpi ▸ hhd p hp
      · cases h
        exact ih _ htail hrest
    · exact absurd h (by simp)

/-- C4: for every query, user id, and limit, the list returned by
`get_relevant_memories` is monotonically non-increasing in the combined score
`0.7 * similarity + 0.3 * importance`: each returned item's combined score is
greater than or equal to the next item's. -/
theorem claim_C4 (vocab : List String) (idf : String → ℝ) (threshold : ℝ)
    (table : List Memory) (user_id : String) (query : String) (k : ℕ) :
    (MemoryRAG.get_relevant_memories vocab idf threshold table user_id query k).Pairwise
      (fun a b => 0.7 * b.2.1 + 0.3 * b.1.importance_score ≤
        0.7 * a.2.1 + 0.3 * a.1.importance_score) := by
  unfold MemoryRAG.get_relevant_memories
  apply List.Pairwise.sublist (List.take_sublist _ _)
  have hsorted := sortByKeyDesc_sorted (fun x : Memory × ℝ × ℝ => x.2.2)
    (((sortByKeyDesc (fun m : Memory => m.importance_score)
        (table.filter (fun m => m.user_id = user_id))).take 50).filterMap
      (MemoryRAG.scanMemory (SimpleEmbedding.embed_text vocab idf query) threshold))
  refine hsorted.imp_of_mem ?_
  intro a b ha hb hab
  rw [mem_sortByKeyDesc] at ha hb
  obtain ⟨ma, _, hma⟩ := List.mem_filterMap.mp ha
  obtain ⟨mb, _, hmb⟩ := List.mem_filterMap.mp hb
  have ea := (MemoryRAG.scanMemory_eq_some hma).2.2
  have eb := (MemoryRAG.scanMemory_eq_some hmb).2.2
  rw [ea, eb] at hab
  linarith

/-- C3 (amended): both similar-turn searches return at most `k` entries, every
returned entry's similarity is at or above the configured threshold, and the
list is sorted descending by similarity.  Equal-similarity entries keep the
stable sort's scan order: in `MemoryRAGSystem.search_similar_conversations`
the scan is most-recent-first (`created_at` descending), so ties are ordered
most recent first; in `based_rag.search_similar_conversations` the scan is the
chronological storage order, so ties are ordered oldest first (smaller scan
index first), not most recent first. -/
theorem claim_C3_amended (vocab : List String) (idf : String → ℝ) (threshold : ℝ)
    (table : List ConversationLog) (user_id : Option String) (query : String)
    (k : ℕ) (rag_enabled : Bool) (bthreshold : ℝ)
    (conversation_index : List RagEntry) (bquery : String) (bk : ℕ) :
    ((MemoryRAG.search_similar_conversations vocab idf threshold table user_id
        query k).length ≤ k ∧
      (∀ p ∈ MemoryRAG.search_similar_conversations vocab idf threshold table
          user_id query k, threshold ≤ p.2) ∧
      (MemoryRAG.search_similar_conversations vocab idf threshold table user_id
          query k).Pairwise
        (fun a b => b.2 < a.2 ∨ (a.2 = b.2 ∧ b.1.created_at ≤ a.1.created_at))) ∧
    ((BasedRag.search_similar_conversations rag_enabled bthreshold
        conversation_index bquery bk).length ≤ bk ∧
      (∀ x ∈ BasedRag.search_similar_conversations rag_enabled bthreshold
          conversation_index bquery bk, bthreshold ≤ x.2.1) ∧
      (BasedRag.search_similar_conversations rag_enabled bthreshold
          conversation_index bquery bk).Pairwise
        (fun a b => b.2.1 < a.2.1 ∨ (a.2.1 = b.2.1 ∧ a.1 < b.1))) := by
  constructor
  · unfold MemoryRAG.search_similar_conversations
    refine ⟨List.length_take_le _ _, ?_, ?_⟩
    · intro p hp
      have hp1 := List.mem_of_mem_take hp
      rw [mem_sortByKeyDesc] at hp1
      obtain ⟨c, _, hc⟩ := List.mem_filterMap.mp hp1
      exact le_of_lt (MemoryRAG.scanConversation_eq_some hc).2
    · apply List.Pairwise.sublist (List.take_sublist _ _)
      have hconv : ((sortByKeyDesc (fun c : ConversationLog => c.created_at)
          (match user_id with
            | some uid => table.filter (fun c => c.user_id = uid)
            | none => table)).take 100).Pairwise
          (fun c d => d.created_at ≤ c.created_at) :=
        List.Pairwise.sublist (List.take_sublist _ _) (sortByKeyDesc_sorted _ _)
      refine (sortByKeyDesc_pairwise (fun p : ConversationLog × ℝ => p.2)
        (fun a b => b.1.created_at ≤ a.1.created_at) _ ?_).imp (fun hx => hx)
      refine List.pairwise_filterMap.mpr (List.Pairwise.imp ?_ hconv)
      intro c d h x hx y hy
      have ex := (MemoryRAG.scanConversation_eq_some (Option.mem_def.mp hx)).1
      have ey := (MemoryRAG.scanConversation_eq_some (Option.mem_def.mp hy)).1
      rw [ex, ey]
      exact h
  · unfold BasedRag.search_similar_conversations
    split
    · exact ⟨by simp, by simp, by simp⟩
    · cases hcol : BasedRag.collectSims bthreshold
          (BasedRag.simple_text_embedding bquery) conversation_index.enum with
      | none => exact ⟨by simp, by simp, by simp⟩
      | some sims =>
        refine ⟨List.length_take_le _ _, ?_, ?_⟩
        · intro x hx
          have hx1 := List.mem_of_mem_take hx
          rw [mem_sortByKeyDesc] at hx1
          exact (BasedRag.collectSims_spec _ _ _ _ hcol x hx1).1
        · apply List.Pairwise.sublist (List.take_sublist _ _)
          have h1 := BasedRag.collectSims_pairwise _ _ _ _ hcol
            (pairwise_enum conversation_index)
          have h2 := sortByKeyDesc_pairwise (fun x : ℕ × ℝ × RagEntry => x.2.1)
            (fun a b => a.1 < b.1) sims h1
          exact h2.imp (fun hx => hx)

theorem hello_embedding_ne_nil : BasedRag.simple_text_embedding "hello" ≠ [] := by
  simp [BasedRag.simple_text_embedding]

theorem hello_embedding_sumSq_ne :
    sumSq (BasedRag.simple_text_embedding "hello") ≠ 0 := by
  refine sumSq_ne_zero_of_mem (a := ((5 : ℚ)/100) ⊓ 1) ?_ (by norm_num)
  simp [BasedRag.simple_text_embedding]

theorem hello_cosine_self :
    BasedRag.cosine_similarity (BasedRag.simple_text_embedding "hello")
      (BasedRag.simple_text_embedding "hello") = some 1 :=
  BasedRag.cosine_similarity_self_one _ hello_embedding_ne_nil hello_embedding_sumSq_ne

/-- C3 (counterexample): in `based_rag.search_similar_conversations`, two
stored conversations with equal similarity to the query (both exactly 1) are
returned oldest first — scan index 0 before scan index 1 — with the default
threshold 0.6, contradicting the claim that ties are ordered most recent
first (which would return index 1 first). -/
theorem claim_C3_counterexample :
    (BasedRag.search_similar_conversations true 0.6 [helloEntry, helloEntry]
        "hello" 5).map (fun x => (x.1, x.2.1)) = [(0, 1), (1, 1)] ∧
      ([((0 : ℕ), (1 : ℝ)), (1, 1)] ≠ [(1, 1), (0, 1)]) := by
  constructor
  · have henum : ([helloEntry, helloEntry] : List RagEntry).enum =
        [(0, helloEntry), (1, helloEntry)] := rfl
    have hcol : BasedRag.collectSims 0.6 (BasedRag.simple_text_embedding "hello")
        [(0, helloEntry), (1, helloEntry)] =
        some [(0, 1, helloEntry), (1, 1, helloEntry)] := by
      have hu : helloEntry.user_embedding = BasedRag.simple_text_embedding "hello" := rfl
      have ha : helloEntry.ai_embedding = BasedRag.simple_text_embedding "hello" := rfl
      simp only [BasedRag.collectSims, hu, ha, hello_cosine_self]
      norm_num
    simp only [BasedRag.search_similar_conversations]
    rw [if_neg (by simp)]
    rw [henum, hcol]
    simp only [sortByKeyDesc, insertByKeyDesc]
    rw [if_neg (by norm_num)]
    simp
  · simp

/-- C6 (amended): `SimpleEmbedding.cosine_similarity` is a total function with
values in the closed interval from -1 to 1, returning 0 on a dimension
mismatch and 0 when either vector is all-zero.  `based_rag.cosine_similarity`
returns 0 when either vector is empty and a value in the same interval on
equal dimensions, but on nonempty vectors of differing dimensions it raises
(`np.dot` raises `ValueError`) instead of returning 0. -/
theorem claim_C6_amended :
    (∀ v1 v2 : List ℝ,
      SimpleEmbedding.cosine_similarity v1 v2 ∈ Set.Icc (-1 : ℝ) 1 ∧
      (v1.length ≠ v2.length → SimpleEmbedding.cosine_similarity v1 v2 = 0) ∧
      ((∀ a ∈ v1, a = 0) ∨ (∀ a ∈ v2, a = 0) →
        SimpleEmbedding.cosine_similarity v1 v2 = 0)) ∧
    (∀ w1 w2 : List ℚ,
      (w1 = [] ∨ w2 = [] → BasedRag.cosine_similarity w1 w2 = some 0) ∧
      (w1.length = w2.length → ∃ r : ℝ, BasedRag.cosine_similarity w1 w2 = some r ∧
        r ∈ Set.Icc (-1 : ℝ) 1) ∧
      (w1 ≠ [] → w2 ≠ [] → w1.length ≠ w2.length →
        BasedRag.cosine_similarity w1 w2 = none)) := by
  constructor
  · intro v1 v2
    refine ⟨SimpleEmbedding.cosine_similarity_mem_Icc v1 v2,
      SimpleEmbedding.cosine_similarity_of_length_ne v1 v2, ?_⟩
    intro h
    refine SimpleEmbedding.cosine_similarity_of_zero v1 v2 ?_
    rcases h with h | h
    · exact Or.inl ((sumSq_eq_zero_iff v1).mpr h)
    · exact Or.inr ((sumSq_eq_zero_iff v2).mpr h)
  · intro w1 w2
    exact ⟨BasedRag.cosine_similarity_empty w1 w2,
      BasedRag.cosine_similarity_eq_length w1 w2,
      fun h1 h2 hlen => BasedRag.cosine_similarity_mismatch w1 w2 h1 h2 hlen⟩

theorem claim_C6_witness :
    SimpleEmbedding.cosine_similarity [(1 : ℝ)] [] = 0 ∧
      BasedRag.cosine_similarity ([] : List ℚ) [] = some 0 :=
  ⟨(claim_C6_amended.1 [1] []).2.1 (by simp),
    (claim_C6_amended.2 [] []).1 (Or.inl rfl)⟩

/-- C6 (counterexample): `based_rag.cosine_similarity` on the nonempty vectors
`[1.0]` and `[1.0, 2.0]` of differing dimensions raises (`np.dot` raises
`ValueError`, modelled as `none`) rather than returning 0 as the claim
states. -/
theorem claim_C6_counterexample :
    BasedRag.cosine_similarity [(1 : ℚ)] [1, 2] = none ∧
      (none : Option ℝ) ≠ some 0 := by
  constructor
  · exact BasedRag.cosine_similarity_mismatch [1] [1, 2] (by simp) (by simp) (by simp)
  · simp

/-- C7 (amended): for identical texts the similarity of the embedding with
itself is exactly 1 whenever the embedded vector is nonzero (equivalently has
nonzero squared norm); for texts whose embedding is the zero vector — e.g. an
unfitted/empty vocabulary, an empty text, or a text sharing no word with the
vocabulary — the similarity is 0 instead. -/
theorem claim_C7_amended (vocab : List String) (idf : String → ℝ) (A B : String)
    (hAB : A = B) (h : sumSq (SimpleEmbedding.embed_text vocab idf A) ≠ 0) :
    SimpleEmbedding.cosine_similarity (SimpleEmbedding.embed_text vocab idf A)
      (SimpleEmbedding.embed_text vocab idf B) = 1 := by
  subst hAB
  exact SimpleEmbedding.cosine_similarity_self _ h

theorem embed_text_hello : SimpleEmbedding.embed_text ["hello"] (fun _ => 1) "hello" = [1] := by
  have htok : SimpleEmbedding.tokenize "hello" = ["hello"] := by decide
  simp [SimpleEmbedding.embed_text, SimpleEmbedding.embedVector, htok, sumSq,
    Real.sqrt_one, List.range_succ, List.range_zero, List.count_cons, List.count_nil]

theorem claim_C7_witness :
    "hello" = "hello" ∧
    sumSq (SimpleEmbedding.embed_text ["hello"] (fun _ => 1) "hello") ≠ 0 ∧
    SimpleEmbedding.cosine_similarity
      (SimpleEmbedding.embed_text ["hello"] (fun _ => 1) "hello")
      (SimpleEmbedding.embed_text ["hello"] (fun _ => 1) "hello") = 1 := by
  have h : sumSq (SimpleEmbedding.embed_text ["hello"] (fun _ => 1) "hello") ≠ 0 := by
    rw [embed_text_hello]
    simp [sumSq]
  exact ⟨rfl, h, claim_C7_amended ["hello"] (fun _ => 1) "hello" "hello" rfl h⟩

/-- C7 (counterexample): with an unfitted embedder (empty vocabulary — the
state of `SimpleEmbedding` before `_build_vocab`, e.g. with no stored
conversations), the embedding of "hello" is the zero-length vector, and the
similarity of the text with itself is 0, not 1. -/
theorem claim_C7_counterexample :
    SimpleEmbedding.cosine_similarity
      (SimpleEmbedding.embed_text [] (fun _ => 1) "hello")
      (SimpleEmbedding.embed_text [] (fun _ => 1) "hello") = 0 ∧ (0 : ℝ) ≠ 1 := by
  constructor
  · have h : SimpleEmbedding.embed_text [] (fun _ => 1) "hello" = [] := by
      simp [SimpleEmbedding.embed_text, SimpleEmbedding.embedVector, sumSq]
    rw [h]
    exact SimpleEmbedding.cosine_similarity_of_zero [] [] (Or.inl rfl)
  · norm_num

/-- C5 (amended): `store_conversation` never propagates an embedding failure to
the caller — the exception is caught and the function returns 0 — but the turn
is NOT persisted: the embedding call precedes the database insert inside the
same `try`, so on embedding failure the store is left unchanged (the turn is
neither in the log nor searchable). -/
theorem claim_C5_amended (embed : String → Option (List ℝ))
    (db : List ConversationLog) (user_id user_message ai_response : String)
    (h : embed (user_message ++ " " ++ ai_response) = none) :
    MemoryRAG.store_conversation embed db user_id user_message ai_response = (db, 0) := by
  unfold MemoryRAG.store_conversation
  rw [h]

theorem claim_C5_witness :
    MemoryRAG.store_conversation (fun _ => none) [] "u1" "hi" "yo" = ([], 0) :=
  claim_C5_amended (fun _ => none) [] "u1" "hi" "yo" rfl

/-- C5 (counterexample): with an embedder that raises on every input, storing
the turn ("hi", "yo") leaves the conversation table empty — the turn is not
persisted at all, contradicting the claim that it is persisted without a
vector. -/
theorem claim_C5_counterexample :
    (MemoryRAG.store_conversation (fun _ => none) [] "u1" "hi" "yo").1 = [] ∧
      ¬ ∃ c ∈ (MemoryRAG.store_conversation (fun _ => none) [] "u1" "hi" "yo").1,
        c.user_message = "hi" := by
  constructor
  · rfl
  · intro ⟨c, hc, _⟩
    simp [MemoryRAG.store_conversation] at hc

theorem findCloseNoNl_length (cl : Char) :
    ∀ (l r : List Char), findCloseNoNl cl l = some r → r.length ≤ l.length := by
  intro l
  induction l with
  | nil => intro r h; exact absurd h (by simp [findCloseNoNl])
  | cons c rest ih =>
    intro r h
    simp only [findCloseNoNl] at h
    split at h
    · cases h; exact Nat.le_succ _
    · split at h
      · exact absurd h (by simp)
      · exact le_trans (ih r h) (Nat.le_succ _)

theorem mk_toList (s : String) : String.mk s.toList = s := rfl

theorem stripDelimitedAux_id (op cl : Char) :
    ∀ l : List Char, (∀ c ∈ l, c ≠ op) → stripDelimitedAux op cl l = l := by
  intro l
  induction l with
  | nil => intro _; rw [stripDelimitedAux]
  | cons c rest ih =>
    intro h
    have hc : c ≠ op := h c (List.mem_cons_self _ _)
    rw [stripDelimitedAux, if_neg hc, ih (fun d hd => h d (List.mem_cons_of_mem _ hd))]

/-- `_clean_response` leaves a nonempty single-line text without role markers,
asterisks, brackets, parentheses or surrounding whitespace unchanged,
whatever the settings. -/
theorem clean_response_fixed (st : Settings) (t : String) (hne : t ≠ "")
    (h1 : removeRoleMarkers t = t) (h2 : removeAsterisksFn t = t)
    (hop1 : ∀ c ∈ t.toList, c ≠ '[') (hop2 : ∀ c ∈ t.toList, c ≠ '(')
    (h4 : firstLine t = t) (h5 : pyStrip t = t) :
    clean_response st t = t := by
  have hsd1 : stripDelimited '[' ']' t = t := by
    unfold stripDelimited
    rw [stripDelimitedAux_id _ _ _ hop1, mk_toList]
  have hsd2 : stripDelimited '(' ')' t = t := by
    unfold stripDelimited
    rw [stripDelimitedAux_id _ _ _ hop2, mk_toList]
  unfold clean_response
  rw [if_neg hne, h1]
  cases st.remove_asterisks <;> cases st.rp_suppression <;> cases st.newline_cut <;>
    simp [h2, hsd1, hsd2, h4, h5]

theorem clean_genFallback (st : Settings) :
    clean_response st genFallback = genFallback :=
  clean_response_fixed st genFallback (by decide) (by decide) (by decide)
    (by decide) (by decide) (by decide) (by decide)

theorem clean_streamFallback (st : Settings) :
    clean_response st streamFallback = streamFallback :=
  clean_response_fixed st streamFallback (by decide) (by decide) (by decide)
    (by decide) (by decide) (by decide) (by decide)

theorem save_log_append (log : List (String × String)) (h : List ChatEntry)
    (u a : String) (hu : u ≠ "") (ha : a ≠ "") :
    save_conversation_log log (h ++ [⟨Role.user, u⟩, ⟨Role.assistant, a⟩]) =
      log ++ [(u, a)] := by
  simp only [save_conversation_log]
  rw [show (h ++ [(⟨Role.user, u⟩ : ChatEntry), ⟨Role.assistant, a⟩]).length - 2 =
    h.length by simp]
  rw [List.drop_left]
  simp [hu, ha]

/-- C2 (amended): when the remote provider raises during `send_message`, the
controller does not propagate the exception; `last_response` afterwards is the
fixed fallback apology string of the mode in use (the streaming fallback when
`stream_chats` is on, the generation fallback otherwise), the failed exchange
is recorded in the conversation history, and — provided the user input is
nonempty — the conversation log's last entry is the pair of the user's text
and that fallback string (the log writer skips entries with an empty side). -/
theorem claim_C2_amended (st : Settings) (genC : Except Unit String)
    (genS : Except Unit (List String)) (s : GeminiState) (u : String)
    (hS : st.stream_chats = true → genS = .error ())
    (hC : st.stream_chats = false → genC = .error ()) :
    (send_message st genC genS s u).last_response =
      (if st.stream_chats then streamFallback else genFallback) ∧
    (send_message st genC genS s u).conversation_history =
      s.conversation_history ++ [⟨Role.user, u⟩,
        ⟨Role.assistant, if st.stream_chats then streamFallback else genFallback⟩] ∧
    (u ≠ "" → (send_message st genC genS s u).live_log =
      s.live_log ++ [(u, if st.stream_chats then streamFallback else genFallback)]) := by
  cases hst : st.stream_chats with
  | true =>
    rw [hS hst]
    refine ⟨?_, ?_, fun hu => ?_⟩
    · simp [send_message, hst, clean_streamFallback]
    · simp [send_message, hst, clean_streamFallback]
    · simp only [send_message, hst, if_true, clean_streamFallback,
        List.append_assoc, List.cons_append, List.nil_append]
      exact save_log_append s.live_log s.conversation_history u streamFallback hu
        (by decide)
  | false =>
    rw [hC hst]
    refine ⟨?_, ?_, fun hu => ?_⟩
    · simp [send_message, hst, clean_genFallback]
    · simp [send_message, hst, clean_genFallback]
    · simp only [send_message, hst, Bool.false_eq_true, if_false, clean_genFallback,
        List.append_assoc, List.cons_append, List.nil_append]
      exact save_log_append s.live_log s.conversation_history u genFallback hu
        (by decide)

theorem claim_C2_witness :
    (send_message ⟨false, true, true, true⟩ (.error ()) (.ok []) ⟨[], "", []⟩
      "Hello").last_response = genFallback ∧
    (send_message ⟨false, true, true, true⟩ (.error ()) (.ok []) ⟨[], "", []⟩
      "Hello").live_log = [("Hello", genFallback)] := by
  have h := claim_C2_amended ⟨false, true, true, true⟩ (.error ()) (.ok [])
    ⟨[], "", []⟩ "Hello" (fun hc => absurd hc (by decide)) (fun _ => rfl)
  exact ⟨h.1, (h.2.2 (by decide)).trans (by simp)⟩

/-- C2 (counterexample): for the empty user input, the provider raising still
yields the fallback in `last_response`, but the conversation log is NOT
appended — `_save_conversation_log` requires both sides of the exchange to be
nonempty — so the log's last entry is not the pair of the user's text and the
fallback, contradicting the claim's "for every user input". -/
theorem claim_C2_counterexample :
    (send_message ⟨false, true, true, true⟩ (.error ()) (.ok []) ⟨[], "", []⟩
      "").live_log = [] ∧
    ([] : List (String × String)) ≠ [("", genFallback)] := by
  constructor
  · simp only [send_message, clean_genFallback]
    simp [save_conversation_log]
  · simp

/-- C8 (amended): `regenerate_last_response` is a no-op when the history has
fewer than 2 entries.  With at least 2 entries it pops the last entry when
that entry is an AI turn, then scans for the most recent user turn and resends
its content through `send_message` - but only when that content is nonempty
(Python's `if last_user_message:` treats the empty string as falsy): when the
history ends in a user turn with nonempty content followed by an AI turn it
pops the AI turn and resends that user turn, while an empty most recent user
content means the AI turn is still popped but nothing is resent.  When the
last entry is NOT an AI turn the function is not necessarily a no-op: it still
resends the most recent nonempty user content if one is found (it is a no-op
only when the scan finds no user turn, or one with empty content). -/
theorem claim_C8_amended (st : Settings) (genC : Except Unit String)
    (genS : Except Unit (List String)) (s : GeminiState) :
    (s.conversation_history.length < 2 →
      regenerate_last_response st genC genS s = s) ∧
    (∀ (h' : List ChatEntry) (u a : String), u ≠ "" →
      s.conversation_history = h' ++ [⟨Role.user, u⟩, ⟨Role.assistant, a⟩] →
      regenerate_last_response st genC genS s =
        send_message st genC genS
          { s with conversation_history := h' ++ [⟨Role.user, u⟩] } u) ∧
    (∀ (h' : List ChatEntry) (a : String),
      s.conversation_history = h' ++ [⟨Role.user, ""⟩, ⟨Role.assistant, a⟩] →
      regenerate_last_response st genC genS s =
        { s with conversation_history := h' ++ [⟨Role.user, ""⟩] }) ∧
    (2 ≤ s.conversation_history.length →
      (∀ e ∈ s.conversation_history, e.role = Role.user → e.content = "") →
      s.conversation_history.getLast?.map ChatEntry.role ≠ some Role.assistant →
      regenerate_last_response st genC genS s = s) := by
  refine ⟨?_, ?_, ?_, ?_⟩
  · intro h
    unfold regenerate_last_response
    rw [if_neg (by omega)]
  · intro h' u a hu hh
    unfold regenerate_last_response
    rw [if_pos (by simp [hh])]
    have hlast : s.conversation_history.getLast? = some ⟨Role.assistant, a⟩ := by
      rw [hh, show h' ++ [(⟨Role.user, u⟩ : ChatEntry), ⟨Role.assistant, a⟩] =
        (h' ++ [⟨Role.user, u⟩]) ++ [⟨Role.assistant, a⟩] by simp,
        List.getLast?_concat]
    rw [hlast]
    simp only [if_pos rfl]
    have hdrop : s.conversation_history.dropLast = h' ++ [⟨Role.user, u⟩] := by
      rw [hh, show h' ++ [(⟨Role.user, u⟩ : ChatEntry), ⟨Role.assistant, a⟩] =
        (h' ++ [⟨Role.user, u⟩]) ++ [⟨Role.assistant, a⟩] by simp,
        List.dropLast_concat]
    rw [hdrop]
    have hfind : lastUserContent (h' ++ [⟨Role.user, u⟩]) = some u := by
      simp [lastUserContent, List.find?]
    simp [hfind, hu]
  · intro h' a hh
    unfold regenerate_last_response
    rw [if_pos (by simp [hh])]
    have hlast : s.conversation_history.getLast? = some ⟨Role.assistant, a⟩ := by
      rw [hh, show h' ++ [(⟨Role.user, ""⟩ : ChatEntry), ⟨Role.assistant, a⟩] =
        (h' ++ [⟨Role.user, ""⟩]) ++ [⟨Role.assistant, a⟩] by simp,
        List.getLast?_concat]
    rw [hlast]
    simp only [if_pos rfl]
    have hdrop : s.conversation_history.dropLast = h' ++ [⟨Role.user, ""⟩] := by
      rw [hh, show h' ++ [(⟨Role.user, ""⟩ : ChatEntry), ⟨Role.assistant, a⟩] =
        (h' ++ [⟨Role.user, ""⟩]) ++ [⟨Role.assistant, a⟩] by simp,
        List.dropLast_concat]
    rw [hdrop]
    have hfind : lastUserContent (h' ++ [⟨Role.user, ""⟩]) = some "" := by
      simp [lastUserContent, List.find?]
    simp [hfind]
  · intro hlen hemptyuser hlast
    unfold regenerate_last_response
    rw [if_pos hlen]
    have h1 : (match s.conversation_history.getLast? with
        | some e =>
          if e.role = Role.assistant then s.conversation_history.dropLast
          else s.conversation_history
        | none => s.conversation_history) = s.conversation_history := by
      cases he : s.conversation_history.getLast? with
      | none => rfl
      | some e =>
        have : e.role ≠ Role.assistant := by
          intro hc
          exact hlast (by rw [he]; simp [hc])
        simp [this]
    rw [h1]
    dsimp only
    cases hc : lastUserContent s.conversation_history with
    | none => rfl
    | some u =>
      have hue : u = "" := by
        unfold lastUserContent at hc
        cases hf : s.conversation_history.reverse.find?
            (fun e => e.role = Role.user) with
        | none => rw [hf] at hc; simp at hc
        | some e =>
          rw [hf] at hc
          simp at hc
          have hrole := List.find?_some hf
          have hmem := List.mem_of_find?_eq_some hf
          simp only [decide_eq_true_eq] at hrole
          rw [← hc]
          exact hemptyuser e (List.mem_reverse.mp hmem) hrole
      subst hue
      simp

theorem claim_C8_witness :
    (regenerate_last_response ⟨false, true, true, true⟩ (.ok "ok") (.ok [])
        ⟨[⟨Role.user, "x"⟩, ⟨Role.assistant, "y"⟩], "r", []⟩ =
      send_message ⟨false, true, true, true⟩ (.ok "ok") (.ok [])
        ⟨[⟨Role.user, "x"⟩], "r", []⟩ "x") ∧
    (regenerate_last_response ⟨false, true, true, true⟩ (.ok "ok") (.ok [])
        ⟨[⟨Role.user, ""⟩, ⟨Role.assistant, "y"⟩], "r", []⟩ =
      ⟨[⟨Role.user, ""⟩], "r", []⟩) := by
  constructor
  · have h := (claim_C8_amended ⟨false, true, true, true⟩ (.ok "ok") (.ok [])
      ⟨[⟨Role.user, "x"⟩, ⟨Role.assistant, "y"⟩], "r", []⟩).2.1 [] "x" "y"
      (by simp) rfl
    simpa using h
  · have h := (claim_C8_amended ⟨false, true, true, true⟩ (.ok "ok") (.ok [])
      ⟨[⟨Role.user, ""⟩, ⟨Role.assistant, "y"⟩], "r", []⟩).2.2.1 [] "y" rfl
    simpa using h

/-- C8 (counterexample): with a history of two user turns (no AI turn last),
the claim says `regenerate_last` is a no-op, but the code still scans for the
most recent user turn and resends it: the history grows from 2 entries to 4
(the resent user turn and the new assistant turn are appended), and a
generation is issued. -/
theorem claim_C8_counterexample :
    (regenerate_last_response ⟨false, true, true, true⟩ (.ok "ok") (.ok [])
      ⟨[⟨Role.user, "a"⟩, ⟨Role.user, "b"⟩], "", []⟩).conversation_history.length = 4 ∧
    (4 : ℕ) ≠ 2 := by
  constructor
  · simp [regenerate_last_response, lastUserContent, send_message, List.find?]
  · decide

theorem pipe_step_invariant (t s' : PipeState) (hstep : PipeStep t s')
    (ih : mainCount t.pipe_queue = if t.main_pipe_running then 1 else 0) :
    mainCount s'.pipe_queue = if s'.main_pipe_running then 1 else 0 := by
  cases hstep with
  | start_new_pipe m hg =>
    cases m with
    | true =>
      have h0 := hg rfl
      rw [h0] at ih
      simp only [mainCount, List.count_append] at *
      simp [ih, h0]
    | false =>
      simp only [mainCount, List.count_append] at *
      simp [ih]
  | execute_pipe m rest hpop =>
    rw [hpop] at ih
    cases m with
    | true =>
      simp only [mainCount, List.count_cons] at *
      cases hr : t.main_pipe_running with
      | true => rw [hr] at ih; simpa using ih
      | false => rw [hr] at ih; simp at ih
    | false =>
      simp only [mainCount, List.count_cons] at *
      simpa using ih

theorem pipe_invariant (s : PipeState) (h : PipeReachable s) :
    mainCount s.pipe_queue = if s.main_pipe_running then 1 else 0 := by
  induction h with
  | refl => simp [mainCount]
  | tail _ hstep ih => exact pipe_step_invariant _ _ hstep ih

/-- C1: the dispatcher's main-pipe invariant.  In every reachable state (under
the foreground precondition that a main pipe is only enqueued while
`main_pipe_running` is false, expressed as the guard of the enqueue step) the
number of in-flight `is_main=true` requests equals 1 exactly when
`main_pipe_running` is set — hence never exceeds 1, so no two main requests
are ever in flight together — and every step that changes the flag is either a
main enqueue taking it false→true or the completion of the unique main
request taking it true→false: the flag goes false→true→false exactly once per
main request and never skips a transition. -/
theorem claim_C1 (s : PipeState) (h : PipeReachable s) :
    (mainCount s.pipe_queue = if s.main_pipe_running then 1 else 0) ∧
    mainCount s.pipe_queue ≤ 1 ∧
    (∀ s', PipeStep s s' → s'.main_pipe_running ≠ s.main_pipe_running →
      (s.main_pipe_running = false ∧ s'.main_pipe_running = true ∧
        s'.pipe_queue = s.pipe_queue ++ [true]) ∨
      (s.main_pipe_running = true ∧ s'.main_pipe_running = false ∧
        s.pipe_queue = true :: s'.pipe_queue)) := by
  have hinv := pipe_invariant s h
  refine ⟨hinv, ?_, ?_⟩
  · rw [hinv]
    cases s.main_pipe_running <;> simp
  · intro s' hstep hne
    cases hstep with
    | start_new_pipe m hg =>
      cases m with
      | false => simp at hne
      | true =>
        have h0 := hg rfl
        left
        refine ⟨h0, ?_, rfl⟩
        simp [h0]
    | execute_pipe m rest hpop =>
      cases m with
      | false => simp at hne
      | true =>
        right
        have h1 : s.main_pipe_running = true := by
          by_contra hc
          have hb : s.main_pipe_running = false := by
            cases hmb : s.main_pipe_running
            · rfl
            · exact absurd hmb hc
          rw [hpop, hb] at hinv
          simp [mainCount] at hinv
        exact ⟨h1, by simp, by rw [hpop]⟩

theorem claim_C1_witness :
    PipeReachable ⟨true, [true]⟩ ∧
      mainCount (PipeState.mk true [true]).pipe_queue = 1 := by
  have hr : PipeReachable ⟨true, [true]⟩ := by
    have hstep := PipeStep.start_new_pipe ⟨false, []⟩ true (fun _ => rfl)
    exact Relation.ReflTransGen.single hstep
  refine ⟨hr, ?_⟩
  have h := (claim_C1 ⟨true, [true]⟩ hr).1
  simpa using h

/-- C10: `should_trigger_alarm` is independent of the alarm's `enabled` field —
for every alarm record and every time, flipping the flag with all other fields
equal yields the same return value (the function never reads `enabled`) — and
consequently a concrete disabled alarm that is due and untriggered today is
still reported as due to trigger. -/
theorem claim_C10 :
    (∀ (alarm : Alarm) (t : DateTime) (e : Bool),
      should_trigger_alarm { alarm with enabled := e } t =
        should_trigger_alarm alarm t) ∧
    should_trigger_alarm ⟨"wake", "07:00", "", false, false, ""⟩
      ⟨2024, 5, 1, 7, 5⟩ = true := by
  constructor
  · intro alarm t e
    rfl
  · decide

/-- C9 (counterexample): a tag added at time T=0 with decay time D=3600 and
never removed is still returned by `get_active_tags` even when queried after
T+D (e.g. at time 7200): `get_active_tags` merely copies the active set and
consults no clock, so until a decay pass (or a history rebuild) actually runs,
the expired tag remains present, contradicting "every call at a time after
T+D does not include it". -/
theorem claim_C9_counterexample :
    (0 : ℚ) + 3600 < 7200 ∧
    "gaming" ∈ get_active_tags (runTagTrace 3600 initialTagState
      [(TagEvent.add ["gaming"], 0)]) := by
  constructor
  · norm_num
  · simp [runTagTrace, applyTagEvent, add_tags, addOneTag, evictOldest,
      get_active_tags, initialTagState, max_active_tags]

theorem mem_keys_setAssoc_self (k : String) (v : ℚ) :
    ∀ acc : List (String × ℚ), k ∈ (setAssoc k v acc).map Prod.fst := by
  intro acc
  induction acc with
  | nil => simp [setAssoc]
  | cons p rest ih =>
    obtain ⟨k', v'⟩ := p
    simp only [setAssoc]
    by_cases h : k' = k
    · rw [if_pos h]; simp
    · rw [if_neg h]
      simp only [List.map_cons, List.mem_cons]
      exact Or.inr ih

theorem mem_keys_setAssoc_of_ne {a k : String} (hne : a ≠ k) (v : ℚ) :
    ∀ acc : List (String × ℚ),
      a ∈ (setAssoc k v acc).map Prod.fst ↔ a ∈ acc.map Prod.fst := by
  intro acc
  induction acc with
  | nil => simp [setAssoc, hne]
  | cons p rest ih =>
    obtain ⟨k', v'⟩ := p
    simp only [setAssoc]
    by_cases h : k' = k
    · rw [if_pos h]
      subst h
      simp [hne]
    · rw [if_neg h]
      simp only [List.map_cons, List.mem_cons]
      rw [ih]

theorem mem_keys_delAssoc_of_ne {a k : String} (hne : a ≠ k) :
    ∀ acc : List (String × ℚ),
      a ∈ (delAssoc k acc).map Prod.fst ↔ a ∈ acc.map Prod.fst := by
  intro acc
  induction acc with
  | nil => simp [delAssoc]
  | cons p rest ih =>
    obtain ⟨k', v'⟩ := p
    simp only [delAssoc]
    by_cases h : k' = k
    · rw [if_pos h]
      subst h
      simp [hne]
    · rw [if_neg h]
      simp only [List.map_cons, List.mem_cons]
      rw [ih]

theorem keys_delAssoc_subset {a k : String} :
    ∀ acc : List (String × ℚ),
      a ∈ (delAssoc k acc).map Prod.fst → a ∈ acc.map Prod.fst := by
  intro acc
  induction acc with
  | nil => simp [delAssoc]
  | cons p rest ih =>
    obtain ⟨k', v'⟩ := p
    simp only [delAssoc]
    by_cases h : k' = k
    · rw [if_pos h]
      intro hmem
      simp only [List.map_cons, List.mem_cons]
      exact Or.inr hmem
    · rw [if_neg h]
      simp only [List.map_cons, List.mem_cons]
      rintro (rfl | hmem)
      · exact Or.inl rfl
      · exact Or.inr (ih hmem)

/-- Replaying a history in which the tag was added once at `T` (and never
removed) keeps the tag among the rebuilt keys, provided its add entry is not
skipped as too old. -/
theorem rebuild_keeps (D t T : ℚ) (tag : String) :
    ∀ (hist : List HistoryEntry) (acc : List (String × ℚ)),
      (∀ e ∈ hist, e.tag = tag → e = ⟨tag, true, T⟩) →
      ¬(D < t - T) →
      ((⟨tag, true, T⟩ : HistoryEntry) ∈ hist ∨ tag ∈ acc.map Prod.fst) →
      tag ∈ (hist.foldl (rebuildStep D t) acc).map Prod.fst := by
  intro hist
  induction hist with
  | nil =>
    intro acc _ _ h
    rcases h with h | h
    · simp at h
    · simpa using h
  | cons e rest ih =>
    intro acc honly hfresh hstart
    simp only [List.foldl_cons]
    by_cases htag : e.tag = tag
    · have he : e = ⟨tag, true, T⟩ := honly e (List.mem_cons_self _ _) htag
      subst he
      refine ih _ (fun e' he' => honly e' (List.mem_cons_of_mem _ he')) hfresh ?_
      right
      simp only [rebuildStep, if_neg hfresh]
      simpa using mem_keys_setAssoc_self tag T acc
    · refine ih _ (fun e' he' => honly e' (List.mem_cons_of_mem _ he')) hfresh ?_
      rcases hstart with hstart | hstart
      · rcases List.mem_cons.mp hstart with h | h
        · exact absurd (congrArg HistoryEntry.tag h.symm) htag
        · exact Or.inl h
      · right
        have hne : tag ≠ e.tag := fun hc => htag hc.symm
        unfold rebuildStep
        split
        · exact hstart
        · split
          · exact (mem_keys_setAssoc_of_ne hne _ _).mpr hstart
          · exact (mem_keys_delAssoc_of_ne hne _).mpr hstart

/-- Replaying a history in which every "added" entry for the tag is too old
never introduces the tag among the rebuilt keys. -/
theorem rebuild_drops (D t : ℚ) (tag : String) :
    ∀ (hist : List HistoryEntry) (acc : List (String × ℚ)),
      (∀ e ∈ hist, e.tag = tag → e.added = true → D < t - e.timestamp) →
      tag ∉ acc.map Prod.fst →
      tag ∉ (hist.foldl (rebuildStep D t) acc).map Prod.fst := by
  intro hist
  induction hist with
  | nil =>
    intro acc _ h
    simpa using h
  | cons e rest ih =>
    intro acc hold hacc
    simp only [List.foldl_cons]
    refine ih _ (fun e' he' => hold e' (List.mem_cons_of_mem _ he')) ?_
    unfold rebuildStep
    split
    · exact hacc
    · rename_i hyoung
      split
      · rename_i hadded
        have hne : tag ≠ e.tag := by
          intro hc
          exact hyoung (hold e (List.mem_cons_self _ _) hc.symm hadded)
        exact fun hc => hacc ((mem_keys_setAssoc_of_ne hne _ _).mp hc)
      · exact fun hc => hacc (keys_delAssoc_subset _ hc)

theorem setAssoc_keys_nodup (k : String) (v : ℚ) :
    ∀ acc : List (String × ℚ), (acc.map Prod.fst).Nodup →
      ((setAssoc k v acc).map Prod.fst).Nodup := by
  intro acc
  induction acc with
  | nil => intro _; simp [setAssoc]
  | cons p rest ih =>
    obtain ⟨k', v'⟩ := p
    intro hnd
    simp only [List.map_cons, List.nodup_cons] at hnd
    simp only [setAssoc]
    by_cases h : k' = k
    · rw [if_pos h]
      subst h
      simp only [List.map_cons, List.nodup_cons]
      exact hnd
    · rw [if_neg h]
      simp only [List.map_cons, List.nodup_cons]
      refine ⟨?_, ih hnd.2⟩
      intro hc
      exact hnd.1 ((mem_keys_setAssoc_of_ne h v rest).mp hc)

theorem delAssoc_keys_nodup (k : String) :
    ∀ acc : List (String × ℚ), (acc.map Prod.fst).Nodup →
      ((delAssoc k acc).map Prod.fst).Nodup := by
  intro acc
  induction acc with
  | nil => intro _; simp [delAssoc]
  | cons p rest ih =>
    obtain ⟨k', v'⟩ := p
    intro hnd
    simp only [List.map_cons, List.nodup_cons] at hnd
    simp only [delAssoc]
    by_cases h : k' = k
    · rw [if_pos h]
      exact hnd.2
    · rw [if_neg h]
      simp only [List.map_cons, List.nodup_cons]
      exact ⟨fun hc => hnd.1 (keys_delAssoc_subset rest hc), ih hnd.2⟩

theorem setAssoc_length (k : String) (v : ℚ) :
    ∀ acc : List (String × ℚ), (setAssoc k v acc).length ≤ acc.length + 1 := by
  intro acc
  induction acc with
  | nil => simp [setAssoc]
  | cons p rest ih =>
    obtain ⟨k', v'⟩ := p
    simp only [setAssoc]
    by_cases h : k' = k
    · rw [if_pos h]; simp
    · rw [if_neg h]
      simp only [List.length_cons]
      omega

theorem delAssoc_length (k : String) :
    ∀ acc : List (String × ℚ), (delAssoc k acc).length ≤ acc.length := by
  intro acc
  induction acc with
  | nil => simp [delAssoc]
  | cons p rest ih =>
    obtain ⟨k', v'⟩ := p
    simp only [delAssoc]
    by_cases h : k' = k
    · rw [if_pos h]; simp
    · rw [if_neg h]
      simp only [List.length_cons]
      omega

theorem rebuild_fold_length (D t : ℚ) :
    ∀ (hist : List HistoryEntry) (acc : List (String × ℚ)),
      (hist.foldl (rebuildStep D t) acc).length ≤
        acc.length + (hist.filter (fun e => e.added)).length := by
  intro hist
  induction hist with
  | nil => intro acc; simp
  | cons e rest ih =>
    intro acc
    simp only [List.foldl_cons, List.filter_cons]
    have hstep : (rebuildStep D t acc e).length ≤
        acc.length + (if e.added = true then 1 else 0) := by
      unfold rebuildStep
      split
      · omega
      · split
        · exact setAssoc_length _ _ _
        · have := delAssoc_length e.tag acc
          omega
    have := ih (rebuildStep D t acc e)
    by_cases ha : e.added = true
    · rw [if_pos ha] at hstep ⊢
      simp only [List.length_cons]
      omega
    · rw [if_neg ha] at hstep
      rw [if_neg ha]
      omega

theorem rebuild_fold_keys_nodup (D t : ℚ) :
    ∀ (hist : List HistoryEntry) (acc : List (String × ℚ)),
      (acc.map Prod.fst).Nodup →
      ((hist.foldl (rebuildStep D t) acc).map Prod.fst).Nodup := by
  intro hist
  induction hist with
  | nil => intro acc h; simpa using h
  | cons e rest ih =>
    intro acc h
    simp only [List.foldl_cons]
    refine ih _ ?_
    unfold rebuildStep
    split
    · exact h
    · split
      · exact setAssoc_keys_nodup _ _ _ h
      · exact delAssoc_keys_nodup _ _ h

theorem foldl_addOneTag_active_subset (t : ℚ) :
    ∀ (l : List String) (s : TagState),
      s.active_tags ⊆ (l.foldl (addOneTag t) s).active_tags := by
  intro l
  induction l with
  | nil => intro s a ha; exact ha
  | cons x rest ih =>
    intro s a ha
    simp only [List.foldl_cons]
    apply ih (addOneTag t s x)
    unfold addOneTag
    split
    · exact ha
    · exact List.mem_append.mpr (Or.inl ha)

theorem foldl_addOneTag_active_from (t : ℚ) :
    ∀ (l : List String) (s : TagState) (a : String),
      a ∈ (l.foldl (addOneTag t) s).active_tags → a ∈ s.active_tags ∨ a ∈ l := by
  intro l
  induction l with
  | nil => intro s a ha; exact Or.inl ha
  | cons x rest ih =>
    intro s a ha
    simp only [List.foldl_cons] at ha
    rcases ih (addOneTag t s x) a ha with h | h
    · unfold addOneTag at h
      split at h
      · exact Or.inl h
      · simp only [List.mem_append, List.mem_singleton] at h
        rcases h with h | h
        · exact Or.inl h
        · exact Or.inr (h ▸ List.mem_cons_self _ _)
    · exact Or.inr (List.mem_cons_of_mem _ h)

theorem foldl_addOneTag_history (t : ℚ) :
    ∀ (l : List String) (s : TagState),
      ∃ new : List HistoryEntry,
        (l.foldl (addOneTag t) s).tag_history = s.tag_history ++ new ∧
        new.length ≤ l.length ∧
        ∀ e ∈ new, e.tag ∈ l ∧ e.added = true ∧ e.timestamp = t ∧
          e.tag ∉ s.active_tags := by
  intro l
  induction l with
  | nil => intro s; exact ⟨[], by simp, by simp, by simp⟩
  | cons x rest ih =>
    intro s
    simp only [List.foldl_cons]
    obtain ⟨new, hh, hlen, hprop⟩ := ih (addOneTag t s x)
    unfold addOneTag at hh hprop ⊢
    by_cases hx : x ∈ s.active_tags
    · rw [if_pos hx] at hh hprop
      refine ⟨new, by rw [if_pos hx]; exact hh, by simpa using Nat.le_succ_of_le hlen, ?_⟩
      intro e he
      obtain ⟨h1, h2, h3, h4⟩ := hprop e he
      exact ⟨List.mem_cons_of_mem _ h1, h2, h3, h4⟩
    · rw [if_neg hx] at hh hprop
      simp only at hh hprop
      refine ⟨⟨x, true, t⟩ :: new, ?_, by simpa using hlen, ?_⟩
      · rw [if_neg hx]
        simpa [List.append_assoc] using hh
      · intro e he
        rcases List.mem_cons.mp he with rfl | he
        · exact ⟨List.mem_cons_self _ _, rfl, rfl, hx⟩
        · obtain ⟨h1, h2, h3, h4⟩ := hprop e he
          refine ⟨List.mem_cons_of_mem _ h1, h2, h3, ?_⟩
          intro hc
          exact h4 (by simp [hc])

theorem foldl_addOneTag_nodup (t : ℚ) :
    ∀ (l : List String) (s : TagState), s.active_tags.Nodup →
      (l.foldl (addOneTag t) s).active_tags.Nodup := by
  intro l
  induction l with
  | nil => intro s h; exact h
  | cons x rest ih =>
    intro s h
    simp only [List.foldl_cons]
    refine ih _ ?_
    unfold addOneTag
    split
    · exact h
    · rename_i hx
      simpa [List.nodup_append] using ⟨h, hx⟩

theorem foldl_addOneTag_count (t : ℚ) :
    ∀ (l : List String) (s : TagState),
      (l.foldl (addOneTag t) s).active_tags.length + addEntries s =
        s.active_tags.length + addEntries (l.foldl (addOneTag t) s) := by
  intro l
  induction l with
  | nil => intro s; simp only [List.foldl_nil]
  | cons x rest ih =>
    intro s
    simp only [List.foldl_cons]
    by_cases hx : x ∈ s.active_tags
    · rw [show addOneTag t s x = s by unfold addOneTag; rw [if_pos hx]]
      exact ih s
    · rw [show addOneTag t s x =
        ⟨s.active_tags ++ [x], s.tag_history ++ [⟨x, true, t⟩]⟩ by
          unfold addOneTag; rw [if_neg hx]]
      have h := ih ⟨s.active_tags ++ [x], s.tag_history ++ [⟨x, true, t⟩]⟩
      have ha : addEntries (⟨s.active_tags ++ [x],
          s.tag_history ++ [⟨x, true, t⟩]⟩ : TagState) = addEntries s + 1 := by
        simp [addEntries, List.filter_append]
      have hl : (⟨s.active_tags ++ [x],
          s.tag_history ++ [⟨x, true, t⟩]⟩ : TagState).active_tags.length =
          s.active_tags.length + 1 := by simp
      omega

theorem remove_tags_active_sublist (t : ℚ) :
    ∀ (l : List String) (s : TagState),
      (remove_tags t l s).active_tags.Sublist s.active_tags := by
  intro l
  induction l with
  | nil => intro s; exact List.Sublist.refl _
  | cons x rest ih =>
    intro s
    unfold remove_tags at ih ⊢
    simp only [List.foldl_cons]
    refine (ih (removeOneTag t s x)).trans ?_
    unfold removeOneTag
    split
    · exact List.erase_sublist _ _
    · exact List.Sublist.refl _

theorem remove_tags_keep (t : ℚ) (tag : String) :
    ∀ (l : List String) (s : TagState), tag ∉ l → tag ∈ s.active_tags →
      tag ∈ (remove_tags t l s).active_tags := by
  intro l
  induction l with
  | nil => intro s _ h; exact h
  | cons x rest ih =>
    intro s hnl h
    have hx : tag ≠ x := fun hc => hnl (hc ▸ List.mem_cons_self _ _)
    unfold remove_tags at ih ⊢
    simp only [List.foldl_cons]
    refine ih _ (fun hc => hnl (List.mem_cons_of_mem _ hc)) ?_
    unfold removeOneTag
    split
    · exact (List.mem_erase_of_ne hx).mpr h
    · exact h

theorem remove_tags_history (t : ℚ) :
    ∀ (l : List String) (s : TagState),
      ∃ new : List HistoryEntry,
        (remove_tags t l s).tag_history = s.tag_history ++ new ∧
        ∀ e ∈ new, e.added = false ∧ e.tag ∈ l := by
  intro l
  induction l with
  | nil => intro s; exact ⟨[], by simp [remove_tags], by simp⟩
  | cons x rest ih =>
    intro s
    unfold remove_tags at ih ⊢
    simp only [List.foldl_cons]
    by_cases hx : x ∈ s.active_tags
    · have hs : removeOneTag t s x =
          ⟨s.active_tags.erase x, s.tag_history ++ [⟨x, false, t⟩]⟩ := by
        unfold removeOneTag; rw [if_pos hx]
      rw [hs]
      obtain ⟨new, hh, hprop⟩ :=
        ih ⟨s.active_tags.erase x, s.tag_history ++ [⟨x, false, t⟩]⟩
      refine ⟨⟨x, false, t⟩ :: new, ?_, ?_⟩
      · rw [hh]; simp
      · intro e he
        rcases List.mem_cons.mp he with rfl | he
        · exact ⟨rfl, List.mem_cons_self _ _⟩
        · exact ⟨(hprop e he).1, List.mem_cons_of_mem _ (hprop e he).2⟩
    · have hs : removeOneTag t s x = s := by
        unfold removeOneTag; rw [if_neg hx]
      rw [hs]
      obtain ⟨new, hh, hprop⟩ := ih s
      exact ⟨new, hh, fun e he =>
        ⟨(hprop e he).1, List.mem_cons_of_mem _ (hprop e he).2⟩⟩

theorem remove_tags_removes (t : ℚ) (tag : String) :
    ∀ (l : List String) (s : TagState), s.active_tags.Nodup → tag ∈ l →
      tag ∉ (remove_tags t l s).active_tags := by
  intro l
  induction l with
  | nil => intro s _ h; simp at h
  | cons x rest ih =>
    intro s hnd hmem
    unfold remove_tags at ih ⊢
    simp only [List.foldl_cons]
    by_cases hx : tag = x
    · subst hx
      by_cases hact : tag ∈ s.active_tags
      · have hgone : tag ∉ (removeOneTag t s tag).active_tags := by
          unfold removeOneTag
          rw [if_pos hact]
          intro hc
          exact ((List.Nodup.mem_erase_iff hnd).mp hc).1 rfl
        intro hc
        exact hgone ((remove_tags_active_sublist t rest _).subset hc)
      · have hs : removeOneTag t s tag = s := by
          unfold removeOneTag
          rw [if_neg hact]
        rw [hs]
        intro hc
        exact hact ((remove_tags_active_sublist t rest s).subset hc)
    · have hrest : tag ∈ rest := by
        rcases List.mem_cons.mp hmem with h | h
        · exact absurd h hx
        · exact h
      refine ih (removeOneTag t s x) ?_ hrest
      unfold removeOneTag
      split
      · exact hnd.erase x
      · exact hnd

theorem mem_decayCandidates_iff (D t : ℚ) (s : TagState) (tag : String) :
    tag ∈ decayCandidates D t s ↔
      ∃ e ∈ s.tag_history, e.tag = tag ∧ e.added = true ∧
        tag ∈ s.active_tags ∧ D < t - e.timestamp := by
  unfold decayCandidates
  rw [List.mem_dedup, List.mem_map]
  constructor
  · rintro ⟨e, he, rfl⟩
    rw [List.mem_filter, List.mem_reverse] at he
    obtain ⟨he1, he2⟩ := he
    simp only [Bool.and_eq_true, decide_eq_true_eq] at he2
    exact ⟨e, he1, rfl, he2.1.1, he2.1.2, he2.2⟩
  · rintro ⟨e, he, rfl, ha, hactive, hold⟩
    refine ⟨e, ?_, rfl⟩
    rw [List.mem_filter, List.mem_reverse]
    refine ⟨he, ?_⟩
    simp only [Bool.and_eq_true, decide_eq_true_eq]
    exact ⟨⟨ha, hactive⟩, hold⟩

theorem evictOldest_id (s : TagState)
    (h : s.active_tags.length ≤ max_active_tags) : evictOldest s = s := by
  unfold evictOldest
  rw [if_neg (not_lt.mpr h)]

/-- Adding a list containing a fresh tag makes it active with exactly one
history entry, stamped with the event time. -/
theorem foldl_addOneTag_good (t : ℚ) (tag : String) :
    ∀ (l : List String) (s : TagState), tag ∈ l → tag ∉ s.active_tags →
      (∀ e ∈ s.tag_history, e.tag ≠ tag) →
      tag ∈ (l.foldl (addOneTag t) s).active_tags ∧
      (⟨tag, true, t⟩ : HistoryEntry) ∈ (l.foldl (addOneTag t) s).tag_history ∧
      ∀ e ∈ (l.foldl (addOneTag t) s).tag_history, e.tag = tag →
        e = ⟨tag, true, t⟩ := by
  intro l
  induction l with
  | nil => intro s h; simp at h
  | cons x rest ih =>
    intro s hmem hact hhist
    simp only [List.foldl_cons]
    by_cases hx : x = tag
    · subst hx
      have hs : addOneTag t s x =
          ⟨s.active_tags ++ [x], s.tag_history ++ [⟨x, true, t⟩]⟩ := by
        unfold addOneTag; rw [if_neg hact]
      rw [hs]
      have hact' : x ∈ (⟨s.active_tags ++ [x],
          s.tag_history ++ [⟨x, true, t⟩]⟩ : TagState).active_tags := by simp
      obtain ⟨new, hh, _, hprop⟩ :=
        foldl_addOneTag_history t rest
          ⟨s.active_tags ++ [x], s.tag_history ++ [⟨x, true, t⟩]⟩
      refine ⟨foldl_addOneTag_active_subset t rest _ hact', ?_, ?_⟩
      · rw [hh]
        simp
      · intro e he het
        rw [hh] at he
        rcases List.mem_append.mp he with he | he
        · rcases List.mem_append.mp he with he | he
          · exact absurd het (hhist e he)
          · rcases List.mem_singleton.mp he with rfl
            rfl
        · exact absurd hact' (het ▸ (hprop e he).2.2.2)
    · have hne : tag ∉ (addOneTag t s x).active_tags := by
        unfold addOneTag
        split
        · exact hact
        · intro hc
          rcases List.mem_append.mp hc with hc | hc
          · exact hact hc
          · exact hx (List.mem_singleton.mp hc).symm
      have hhist' : ∀ e ∈ (addOneTag t s x).tag_history, e.tag ≠ tag := by
        unfold addOneTag
        split
        · exact hhist
        · intro e he
          rcases List.mem_append.mp he with he | he
          · exact hhist e he
          · rcases List.mem_singleton.mp he with rfl
            exact hx
      have hrest : tag ∈ rest := by
        rcases List.mem_cons.mp hmem with h | h
        · exact absurd h.symm hx
        · exact h
      exact ih (addOneTag t s x) hrest hne hhist'

theorem remove_tags_fresh (t : ℚ) (tag : String) (l : List String) (s : TagState)
    (hnl : tag ∉ l) (hf : Fresh tag s) : Fresh tag (remove_tags t l s) := by
  obtain ⟨ha, ho⟩ := hf
  obtain ⟨new, hh, hprop⟩ := remove_tags_history t l s
  refine ⟨fun hc => ha ((remove_tags_active_sublist t l s).subset hc), ?_⟩
  intro e hme
  rw [hh] at hme
  rcases List.mem_append.mp hme with h | h
  · exact ho e h
  · intro hc
    exact hnl (hc ▸ (hprop e h).2)

theorem remove_tags_good (t T : ℚ) (tag : String) (l : List String) (s : TagState)
    (hnl : tag ∉ l) (hg : Good tag T s) : Good tag T (remove_tags t l s) := by
  obtain ⟨ha, he, ho⟩ := hg
  obtain ⟨new, hh, hprop⟩ := remove_tags_history t l s
  refine ⟨remove_tags_keep t tag l s hnl ha, ?_, ?_⟩
  · rw [hh]
    exact List.mem_append.mpr (Or.inl he)
  · intro e hme het
    rw [hh] at hme
    rcases List.mem_append.mp hme with h | h
    · exact ho e h het
    · exact absurd (het ▸ (hprop e h).2) hnl

theorem remove_tags_dead (t T : ℚ) (tag : String) (l : List String) (s : TagState)
    (hd : Dead tag T s) : Dead tag T (remove_tags t l s) := by
  obtain ⟨ha, ho⟩ := hd
  obtain ⟨new, hh, hprop⟩ := remove_tags_history t l s
  refine ⟨fun hc => ha ((remove_tags_active_sublist t l s).subset hc), ?_⟩
  intro e hme het hadd
  rw [hh] at hme
  rcases List.mem_append.mp hme with h | h
  · exact ho e h het hadd
  · exact absurd hadd (by simp [(hprop e h).1])

theorem remove_tags_inv (t : ℚ) (l : List String) (s : TagState)
    (hinv : TagInv s) :
    TagInv (remove_tags t l s) ∧ addEntries (remove_tags t l s) = addEntries s := by
  obtain ⟨new, hh, hprop⟩ := remove_tags_history t l s
  have haddE : addEntries (remove_tags t l s) = addEntries s := by
    unfold addEntries
    rw [hh, List.filter_append]
    have hnil : new.filter (fun e => e.added) = [] := by
      rw [List.filter_eq_nil_iff]
      intro e he
      simp [(hprop e he).1]
    rw [hnil]
    simp
  have hsub := remove_tags_active_sublist t l s
  exact ⟨⟨hsub.nodup hinv.1,
    le_trans (le_trans hsub.length_le hinv.2) (le_of_eq haddE.symm)⟩, haddE⟩

theorem foldl_addOneTag_fresh (t : ℚ) (tag : String) (l : List String)
    (s : TagState) (hnl : tag ∉ l) (hf : Fresh tag s) :
    Fresh tag (l.foldl (addOneTag t) s) := by
  obtain ⟨ha, ho⟩ := hf
  obtain ⟨new, hh, _, hprop⟩ := foldl_addOneTag_history t l s
  refine ⟨?_, ?_⟩
  · intro hc
    rcases foldl_addOneTag_active_from t l s tag hc with h | h
    · exact ha h
    · exact hnl h
  · intro e hme
    rw [hh] at hme
    rcases List.mem_append.mp hme with h | h
    · exact ho e h
    · intro hc
      exact hnl (hc ▸ (hprop e h).1)

theorem foldl_addOneTag_goodpres (t T : ℚ) (tag : String) (l : List String)
    (s : TagState) (hnl : tag ∉ l) (hg : Good tag T s) :
    Good tag T (l.foldl (addOneTag t) s) := by
  obtain ⟨ha, he, ho⟩ := hg
  obtain ⟨new, hh, _, hprop⟩ := foldl_addOneTag_history t l s
  refine ⟨foldl_addOneTag_active_subset t l s ha, ?_, ?_⟩
  · rw [hh]
    exact List.mem_append.mpr (Or.inl he)
  · intro e hme het
    rw [hh] at hme
    rcases List.mem_append.mp hme with h | h
    · exact ho e h het
    · exact absurd (het ▸ (hprop e h).1) hnl

theorem foldl_addOneTag_deadpres (t T : ℚ) (tag : String) (l : List String)
    (s : TagState) (hnl : tag ∉ l) (hd : Dead tag T s) :
    Dead tag T (l.foldl (addOneTag t) s) := by
  obtain ⟨ha, ho⟩ := hd
  obtain ⟨new, hh, _, hprop⟩ := foldl_addOneTag_history t l s
  refine ⟨?_, ?_⟩
  · intro hc
    rcases foldl_addOneTag_active_from t l s tag hc with h | h
    · exact ha h
    · exact hnl h
  · intro e hme het hadd
    rw [hh] at hme
    rcases List.mem_append.mp hme with h | h
    · exact ho e h het hadd
    · exact absurd (het ▸ (hprop e h).1) hnl

/-- Under the activity bound, `add_tags` is the plain fold (the eviction
branch is never reached) and the invariant is maintained. -/
theorem add_tags_eq_fold (t : ℚ) (l : List String) (s : TagState)
    (hinv : TagInv s) (hb : addEntries s + l.length ≤ max_active_tags) :
    add_tags t l s = l.foldl (addOneTag t) s ∧
    TagInv (l.foldl (addOneTag t) s) ∧
    addEntries (l.foldl (addOneTag t) s) ≤ addEntries s + l.length := by
  obtain ⟨new, hh, hlen, hprop⟩ := foldl_addOneTag_history t l s
  have haddE : addEntries (l.foldl (addOneTag t) s) = addEntries s + new.length := by
    unfold addEntries
    rw [hh, List.filter_append]
    have hself : new.filter (fun e => e.added) = new :=
      List.filter_eq_self.mpr (fun e he => by simp [(hprop e he).2.1])
    rw [hself, List.length_append]
  have hcount := foldl_addOneTag_count t l s
  have hinv2 := hinv.2
  have hlenb : (l.foldl (addOneTag t) s).active_tags.length ≤
      addEntries (l.foldl (addOneTag t) s) := by omega
  have hnodup := foldl_addOneTag_nodup t l s hinv.1
  have hfoldb : (l.foldl (addOneTag t) s).active_tags.length ≤ max_active_tags := by
    omega
  refine ⟨?_, ⟨hnodup, hlenb⟩, by omega⟩
  unfold add_tags
  split
  · rename_i hl
    subst hl
    rfl
  · exact evictOldest_id _ hfoldb

/-- One event of the tag controller: invariant maintenance, activity
accounting, and the fate of a single tag that the event does not name.  The
tag's lifecycle facts: a fresh tag stays fresh; an active tag added at `T`
stays active as long as a decay pass or rebuild only sees it younger than the
decay time; a decay pass or rebuild that sees it older retires it; a retired
tag stays retired (for a rebuild: provided the rebuild also runs past the
expiry, which chronology guarantees). -/
theorem tagStep_master (D T : ℚ) (tag : String) (ev : TagEvent) (t : ℚ)
    (s : TagState) (hinv : TagInv s) (hm : ¬ mentionsTag ev tag)
    (hbound : addEntries s + eventAdds ev ≤ max_active_tags) :
    TagInv (applyTagEvent D s (ev, t)) ∧
    addEntries (applyTagEvent D s (ev, t)) ≤ addEntries s + eventAdds ev ∧
    (Fresh tag s → Fresh tag (applyTagEvent D s (ev, t))) ∧
    (Good tag T s → ((ev = TagEvent.decay ∨ ev = TagEvent.rebuild) → ¬(D < t - T)) →
      Good tag T (applyTagEvent D s (ev, t))) ∧
    (Good tag T s → D < t - T → (ev = TagEvent.decay ∨ ev = TagEvent.rebuild) →
      Dead tag T (applyTagEvent D s (ev, t))) ∧
    (Dead tag T s → (ev = TagEvent.rebuild → D < t - T) →
      Dead tag T (applyTagEvent D s (ev, t))) := by
  cases ev with
  | add l =>
    have hnl : tag ∉ l := hm
    have hb : addEntries s + l.length ≤ max_active_tags := hbound
    obtain ⟨heq, hinv', haddE⟩ := add_tags_eq_fold t l s hinv hb
    simp only [applyTagEvent, heq]
    refine ⟨hinv', haddE, foldl_addOneTag_fresh t tag l s hnl,
      fun hg _ => foldl_addOneTag_goodpres t T tag l s hnl hg,
      fun _ _ hc => by rcases hc with h | h <;> exact TagEvent.noConfusion h,
      fun hd _ => foldl_addOneTag_deadpres t T tag l s hnl hd⟩
  | remove l =>
    have hnl : tag ∉ l := hm
    obtain ⟨hinv', haddE⟩ := remove_tags_inv t l s hinv
    simp only [applyTagEvent]
    refine ⟨hinv', le_of_le_of_eq (le_of_eq haddE) (by simp [eventAdds]),
      remove_tags_fresh t tag l s hnl,
      fun hg _ => remove_tags_good t T tag l s hnl hg,
      fun _ _ hc => by rcases hc with h | h <;> exact TagEvent.noConfusion h,
      fun hd _ => remove_tags_dead t T tag l s hd⟩
  | decay =>
    simp only [applyTagEvent]
    unfold decay_old_tags
    by_cases hact : s.active_tags = []
    · rw [if_pos hact]
      refine ⟨hinv, by simp [eventAdds], id, fun hg _ => hg, ?_, fun hd _ => hd⟩
      intro hg hD _
      exact absurd (hact ▸ hg.1) (List.not_mem_nil tag)
    · rw [if_neg hact]
      by_cases hcand : decayCandidates D t s = []
      · rw [if_pos hcand]
        refine ⟨hinv, by simp [eventAdds], id, fun hg _ => hg, ?_, fun hd _ => hd⟩
        intro hg hD _
        have : tag ∈ decayCandidates D t s :=
          (mem_decayCandidates_iff D t s tag).mpr
            ⟨⟨tag, true, T⟩, hg.2.1, rfl, rfl, hg.1, hD⟩
        rw [hcand] at this
        exact absurd this (List.not_mem_nil tag)
      · rw [if_neg hcand]
        obtain ⟨hinv', haddE⟩ := remove_tags_inv t (decayCandidates D t s) s hinv
        have hnotin : Good tag T s → ¬(D < t - T) → tag ∉ decayCandidates D t s := by
          intro hg hD hc
          obtain ⟨e, he, het, hadd, _, hold⟩ := (mem_decayCandidates_iff D t s tag).mp hc
          have := hg.2.2 e he het
          rw [this] at hold
          exact hD hold
        refine ⟨hinv', le_of_le_of_eq (le_of_eq haddE) (by simp [eventAdds]), ?_, ?_, ?_, ?_⟩
        · intro hf
          refine remove_tags_fresh t tag _ s ?_ hf
          intro hc
          obtain ⟨e, he, het, hadd, hactive, hold⟩ :=
            (mem_decayCandidates_iff D t s tag).mp hc
          exact hf.1 hactive
        · intro hg hD
          exact remove_tags_good t T tag _ s (hnotin hg (hD (by simp))) hg
        · intro hg hD _
          have hmem : tag ∈ decayCandidates D t s :=
            (mem_decayCandidates_iff D t s tag).mpr
              ⟨⟨tag, true, T⟩, hg.2.1, rfl, rfl, hg.1, hD⟩
          obtain ⟨new, hh, hprop⟩ := remove_tags_history t (decayCandidates D t s) s
          refine ⟨remove_tags_removes t tag _ s hinv.1 hmem, ?_⟩
          intro e hme het hadd
          rw [hh] at hme
          rcases List.mem_append.mp hme with h | h
          · have := hg.2.2 e h het
            rw [this]
          · exact absurd hadd (by simp [(hprop e h).1])
        · intro hd _
          exact remove_tags_dead t T tag _ s hd
  | rebuild =>
    simp only [applyTagEvent]
    unfold rebuild_active_tags_from_history
    have hkeys_nodup := rebuild_fold_keys_nodup D t s.tag_history [] (by simp)
    have hkeys_len : (rebuildStates D t s.tag_history).length ≤ addEntries s := by
      have := rebuild_fold_length D t s.tag_history []
      simpa [addEntries] using this
    refine ⟨⟨hkeys_nodup, ?_⟩, by simp [eventAdds, addEntries], ?_, ?_, ?_, ?_⟩
    · simpa [addEntries, List.length_map] using hkeys_len
    · intro hf
      refine ⟨?_, hf.2⟩
      exact rebuild_drops D t tag s.tag_history []
        (fun e he het _ => absurd het (hf.2 e he)) (by simp)
    · intro hg hD
      have hD' : ¬(D < t - T) := hD (by simp)
      refine ⟨?_, hg.2.1, hg.2.2⟩
      exact rebuild_keeps D t T tag s.tag_history [] hg.2.2 hD' (Or.inl hg.2.1)
    · intro hg hD _
      refine ⟨?_, ?_⟩
      · exact rebuild_drops D t tag s.tag_history []
          (fun e he het _ => by rw [hg.2.2 e he het]; exact hD) (by simp)
      · intro e he het _
        rw [hg.2.2 e he het]
    · intro hd hD
      refine ⟨?_, hd.2⟩
      exact rebuild_drops D t tag s.tag_history []
        (fun e he het hadd => by rw [hd.2 e he het hadd]; exact hD (by simp)) (by simp)

/-- An `add` event that names a previously unseen tag makes it `Good` at the
event's time, keeping the invariant and the activity accounting. -/
theorem add_event_good (D t : ℚ) (tag : String) (l : List String) (s : TagState)
    (hinv : TagInv s) (hmem : tag ∈ l)
    (hb : addEntries s + l.length ≤ max_active_tags)
    (hf : Fresh tag s) :
    TagInv (applyTagEvent D s (TagEvent.add l, t)) ∧
    addEntries (applyTagEvent D s (TagEvent.add l, t)) ≤ addEntries s + l.length ∧
    Good tag t (applyTagEvent D s (TagEvent.add l, t)) := by
  obtain ⟨heq, hinv2, haddE⟩ := add_tags_eq_fold t l s hinv hb
  simp only [applyTagEvent, heq]
  exact ⟨hinv2, haddE, foldl_addOneTag_good t tag l s hmem hf.1 hf.2⟩

theorem totalAdds_cons (p : TagEvent × ℚ) (evs : List (TagEvent × ℚ)) :
    totalAdds (p :: evs) = eventAdds p.1 + totalAdds evs := by
  simp [totalAdds]

/-- A run of events none of which names the tag keeps a fresh tag fresh,
preserving the invariant and bounding the growth of the history. -/
theorem runTrace_fresh (D : ℚ) (tag : String) :
    ∀ (evs : List (TagEvent × ℚ)) (s : TagState), TagInv s →
      (∀ p ∈ evs, ¬ mentionsTag p.1 tag) →
      addEntries s + totalAdds evs ≤ max_active_tags →
      Fresh tag s →
      TagInv (runTagTrace D s evs) ∧
      addEntries (runTagTrace D s evs) ≤ addEntries s + totalAdds evs ∧
      Fresh tag (runTagTrace D s evs) := by
  intro evs
  induction evs with
  | nil =>
    intro s hinv _ _ hf
    exact ⟨hinv, by simp [runTagTrace, totalAdds], hf⟩
  | cons p rest ih =>
    intro s hinv hm hb hf
    obtain ⟨ev, t⟩ := p
    have hm0 : ¬ mentionsTag ev tag := hm (ev, t) (List.mem_cons_self _ _)
    have ht : totalAdds ((ev, t) :: rest) = eventAdds ev + totalAdds rest :=
      totalAdds_cons (ev, t) rest
    rw [ht] at hb
    have hb0 : addEntries s + eventAdds ev ≤ max_active_tags := by omega
    obtain ⟨hinv2, haddE2, hfresh2, _, _, _⟩ :=
      tagStep_master D 0 tag ev t s hinv hm0 hb0
    have hstep : runTagTrace D s ((ev, t) :: rest)
        = runTagTrace D (applyTagEvent D s (ev, t)) rest := by
      simp [runTagTrace]
    rw [hstep, ht]
    have hbrest : addEntries (applyTagEvent D s (ev, t)) + totalAdds rest ≤
        max_active_tags := by omega
    obtain ⟨h1, h2, h3⟩ := ih (applyTagEvent D s (ev, t)) hinv2
      (fun q hq => hm q (List.mem_cons_of_mem _ hq)) hbrest (hfresh2 hf)
    exact ⟨h1, by omega, h3⟩

/-- A run of events none of which names the tag, all falling before the
tag's expiry, keeps a `Good` tag good. -/
theorem runTrace_good (D T : ℚ) (tag : String) :
    ∀ (evs : List (TagEvent × ℚ)) (s : TagState), TagInv s →
      (∀ p ∈ evs, ¬ mentionsTag p.1 tag) →
      addEntries s + totalAdds evs ≤ max_active_tags →
      (∀ p ∈ evs, p.2 - T ≤ D) →
      Good tag T s →
      TagInv (runTagTrace D s evs) ∧
      addEntries (runTagTrace D s evs) ≤ addEntries s + totalAdds evs ∧
      Good tag T (runTagTrace D s evs) := by
  intro evs
  induction evs with
  | nil =>
    intro s hinv _ _ _ hg
    exact ⟨hinv, by simp [runTagTrace, totalAdds], hg⟩
  | cons p rest ih =>
    intro s hinv hm hb htime hg
    obtain ⟨ev, t⟩ := p
    have hm0 : ¬ mentionsTag ev tag := hm (ev, t) (List.mem_cons_self _ _)
    have ht : totalAdds ((ev, t) :: rest) = eventAdds ev + totalAdds rest :=
      totalAdds_cons (ev, t) rest
    rw [ht] at hb
    have hb0 : addEntries s + eventAdds ev ≤ max_active_tags := by omega
    obtain ⟨hinv2, haddE2, _, hgood2, _, _⟩ :=
      tagStep_master D T tag ev t s hinv hm0 hb0
    have ht0 : t - T ≤ D := htime (ev, t) (List.mem_cons_self _ _)
    have hstep : runTagTrace D s ((ev, t) :: rest)
        = runTagTrace D (applyTagEvent D s (ev, t)) rest := by
      simp [runTagTrace]
    rw [hstep, ht]
    have hbrest : addEntries (applyTagEvent D s (ev, t)) + totalAdds rest ≤
        max_active_tags := by omega
    obtain ⟨h1, h2, h3⟩ := ih (applyTagEvent D s (ev, t)) hinv2
      (fun q hq => hm q (List.mem_cons_of_mem _ hq)) hbrest
      (fun q hq => htime q (List.mem_cons_of_mem _ hq))
      (hgood2 hg (fun _ => not_lt.mpr ht0))
    exact ⟨h1, by omega, h3⟩

/-- A run of events none of which names the tag, all falling after the
tag's expiry, keeps a `Dead` tag dead. -/
theorem runTrace_dead (D T : ℚ) (tag : String) :
    ∀ (evs : List (TagEvent × ℚ)) (s : TagState), TagInv s →
      (∀ p ∈ evs, ¬ mentionsTag p.1 tag) →
      addEntries s + totalAdds evs ≤ max_active_tags →
      (∀ p ∈ evs, D < p.2 - T) →
      Dead tag T s →
      Dead tag T (runTagTrace D s evs) := by
  intro evs
  induction evs with
  | nil =>
    intro s _ _ _ _ hd
    simpa [runTagTrace] using hd
  | cons p rest ih =>
    intro s hinv hm hb htime hd
    obtain ⟨ev, t⟩ := p
    have hm0 : ¬ mentionsTag ev tag := hm (ev, t) (List.mem_cons_self _ _)
    have ht : totalAdds ((ev, t) :: rest) = eventAdds ev + totalAdds rest :=
      totalAdds_cons (ev, t) rest
    rw [ht] at hb
    have hb0 : addEntries s + eventAdds ev ≤ max_active_tags := by omega
    obtain ⟨hinv2, haddE2, _, _, _, hdead2⟩ :=
      tagStep_master D T tag ev t s hinv hm0 hb0
    have ht0 : D < t - T := htime (ev, t) (List.mem_cons_self _ _)
    have hstep : runTagTrace D s ((ev, t) :: rest)
        = runTagTrace D (applyTagEvent D s (ev, t)) rest := by
      simp [runTagTrace]
    rw [hstep]
    have hbrest : addEntries (applyTagEvent D s (ev, t)) + totalAdds rest ≤
        max_active_tags := by omega
    exact ih (applyTagEvent D s (ev, t)) hinv2
      (fun q hq => hm q (List.mem_cons_of_mem _ hq)) hbrest
      (fun q hq => htime q (List.mem_cons_of_mem _ hq))
      (hdead2 hd (fun _ => ht0))

theorem totalAdds_append (a b : List (TagEvent × ℚ)) :
    totalAdds (a ++ b) = totalAdds a + totalAdds b := by
  simp [totalAdds]

/-- C9 (amended): tag TTL semantics as the controller actually realises it.
Consider a trace of tag events in which the tag is added once, at time `T`
(as part of the list `l`), no other event adds or removes it, and the whole
trace adds at most `max_active_tags` tags (so the eviction branch of
`add_tags` never fires).  Then (a) as long as every later event - in
particular every decay pass and every history rebuild - happens at a time
`t` with `t - T ≤ D`, the tag IS in `get_active_tags` of the final state:
expiry alone does not remove it, a maintenance pass must run; and (b) once
some decay pass or rebuild runs at a time `t0` with `D < t0 - T` (the events
before it still pre-expiry, the events after it no earlier than `t0`), the
tag is NOT in `get_active_tags` of the final state.  This corrects the
claim's "every call at a time after T+D does not include it": between expiry
and the next maintenance pass the tag is still returned (see the
counterexample); absence is guaranteed only after such a pass has run. -/
theorem claim_C9_amended (D T : ℚ) (tag : String) (l : List String)
    (pre post : List (TagEvent × ℚ))
    (hmem : tag ∈ l)
    (hpre : ∀ p ∈ pre, ¬ mentionsTag p.1 tag)
    (hpost : ∀ p ∈ post, ¬ mentionsTag p.1 tag)
    (hbound : totalAdds pre + l.length + totalAdds post ≤ max_active_tags) :
    ((∀ p ∈ post, p.2 - T ≤ D) →
      tag ∈ get_active_tags (runTagTrace D initialTagState
        (pre ++ (TagEvent.add l, T) :: post))) ∧
    (∀ mid ev t0 rest, post = mid ++ (ev, t0) :: rest →
      (ev = TagEvent.decay ∨ ev = TagEvent.rebuild) →
      D < t0 - T →
      (∀ p ∈ mid, p.2 - T ≤ D) →
      (∀ p ∈ rest, t0 ≤ p.2) →
      tag ∉ get_active_tags (runTagTrace D initialTagState
        (pre ++ (TagEvent.add l, T) :: post))) := by
  have hinit : TagInv initialTagState := by
    constructor
    · simp [initialTagState]
    · simp [initialTagState, addEntries]
  have hfresh : Fresh tag initialTagState := by
    constructor
    · simp [initialTagState, get_active_tags]
    · simp [initialTagState]
  have haddinit : addEntries initialTagState = 0 := rfl
  have hbpre : addEntries initialTagState + totalAdds pre ≤ max_active_tags := by
    omega
  obtain ⟨hinv1, haddE1, hfresh1⟩ :=
    runTrace_fresh D tag pre initialTagState hinit hpre hbpre hfresh
  have hb1 : addEntries (runTagTrace D initialTagState pre) + l.length ≤
      max_active_tags := by omega
  obtain ⟨hinv2, haddE2, hgood2⟩ :=
    add_event_good D T tag l (runTagTrace D initialTagState pre) hinv1 hmem hb1 hfresh1
  have hsplit : runTagTrace D initialTagState (pre ++ (TagEvent.add l, T) :: post)
      = runTagTrace D (applyTagEvent D (runTagTrace D initialTagState pre)
          (TagEvent.add l, T)) post := by
    simp [runTagTrace, List.foldl_append]
  have hb2 : addEntries (applyTagEvent D (runTagTrace D initialTagState pre)
      (TagEvent.add l, T)) + totalAdds post ≤ max_active_tags := by omega
  constructor
  · intro htime
    obtain ⟨_, _, hgood3⟩ := runTrace_good D T tag post _ hinv2 hpost hb2 htime hgood2
    rw [hsplit]
    exact hgood3.1
  · intro mid ev t0 rest hps hev ht0 hmid hrest
    subst hps
    have htA : totalAdds (mid ++ (ev, t0) :: rest)
        = totalAdds mid + (eventAdds ev + totalAdds rest) := by
      rw [totalAdds_append, totalAdds_cons]
    rw [htA] at hb2
    have hbmid : addEntries (applyTagEvent D (runTagTrace D initialTagState pre)
        (TagEvent.add l, T)) + totalAdds mid ≤ max_active_tags := by omega
    have hpostmid : ∀ p ∈ mid, ¬ mentionsTag p.1 tag :=
      fun p hp => hpost p (List.mem_append_left _ hp)
    obtain ⟨hinv3, haddE3, hgood3⟩ :=
      runTrace_good D T tag mid _ hinv2 hpostmid hbmid hmid hgood2
    have hm3 : ¬ mentionsTag ev tag := by
      have := hpost (ev, t0) (List.mem_append_right _ (List.mem_cons_self _ _))
      exact this
    have hb3 : addEntries (runTagTrace D (applyTagEvent D
        (runTagTrace D initialTagState pre) (TagEvent.add l, T)) mid) +
        eventAdds ev ≤ max_active_tags := by omega
    obtain ⟨hinv4, haddE4, _, _, hkill, _⟩ :=
      tagStep_master D T tag ev t0 _ hinv3 hm3 hb3
    have hdead4 := hkill hgood3 ht0 hev
    have hbrest : addEntries (applyTagEvent D (runTagTrace D (applyTagEvent D
        (runTagTrace D initialTagState pre) (TagEvent.add l, T)) mid) (ev, t0)) +
        totalAdds rest ≤ max_active_tags := by omega
    have hpostrest : ∀ p ∈ rest, ¬ mentionsTag p.1 tag :=
      fun p hp => hpost p
        (List.mem_append_right _ (List.mem_cons_of_mem _ hp))
    have htrest : ∀ p ∈ rest, D < p.2 - T := by
      intro p hp
      have := hrest p hp
      linarith
    have hdeadend := runTrace_dead D T tag rest _ hinv4 hpostrest hbrest htrest hdead4
    have hsplit2 : runTagTrace D (applyTagEvent D (runTagTrace D initialTagState pre)
        (TagEvent.add l, T)) (mid ++ (ev, t0) :: rest)
        = runTagTrace D (applyTagEvent D (runTagTrace D (applyTagEvent D
            (runTagTrace D initialTagState pre) (TagEvent.add l, T)) mid) (ev, t0))
          rest := by
      simp [runTagTrace, List.foldl_append]
    rw [hsplit, hsplit2]
    exact hdeadend.1

/-- C9 witness: with decay time 3600, adding "gaming" at time 0 and running a
decay pass at time 1000 (pre-expiry) keeps the tag active, while running the
decay pass at time 4000 (past expiry) removes it. -/
theorem claim_C9_witness :
    "gaming" ∈ get_active_tags (runTagTrace 3600 initialTagState
      ([] ++ (TagEvent.add ["gaming"], 0) :: [(TagEvent.decay, 1000)])) ∧
    "gaming" ∉ get_active_tags (runTagTrace 3600 initialTagState
      ([] ++ (TagEvent.add ["gaming"], 0) :: [(TagEvent.decay, 4000)])) := by
  constructor
  · refine (claim_C9_amended 3600 0 "gaming" ["gaming"] [] [(TagEvent.decay, 1000)]
      (by simp) (by simp) ?_ ?_).1 ?_
    · intro p hp
      rcases List.mem_singleton.mp hp with rfl
      simp [mentionsTag]
    · simp [totalAdds, eventAdds, max_active_tags]
    · intro p hp
      rcases List.mem_singleton.mp hp with rfl
      norm_num
  · refine (claim_C9_amended 3600 0 "gaming" ["gaming"] [] [(TagEvent.decay, 4000)]
      (by simp) (by simp) ?_ ?_).2 [] TagEvent.decay 4000 [] rfl (Or.inl rfl)
      (by norm_num) (by simp) (by simp)
    · intro p hp
      rcases List.mem_singleton.mp hp with rfl
      simp [mentionsTag]
    · simp [totalAdds, eventAdds, max_active_tags]

end Vtuber
